import Mathlib

/-!
Verification of the memega evolutionary-computation engine against its
specification.  The definitions below are shallow embeddings of the Rust
source (`src/`).  Machine floating point (`f64`) is modelled by the type
`Val`: a rational number for the finite doubles together with the special
values `inf`, `neginf` and `nan`.  Exact rational arithmetic stands in for
finite-double arithmetic (finite-range overflow is not modelled); the
IEEE special-value and comparison behaviour that the code branches on
(`is_finite`, `>=`, division by zero producing an infinity) is modelled
faithfully.  The transcendental functions (`powf`, `ln`, `sin`, `cos`)
have no rational values; they are modelled by executable stand-ins that
keep the IEEE finiteness classification (which the code inspects) while
abstracting the numeric value (which no theorem below depends on).
-/

namespace Memega

/-- Model of an `f64` value: a finite double (exact rational), `inf`,
`neginf` or `nan`. -/
inductive Val where
  | fin (q : ℚ)
  | inf
  | neginf
  | nan
  deriving DecidableEq, Repr

namespace Val

/-- `f64::is_finite`. -/
def isFinite : Val → Bool
  | fin _ => true
  | _ => false

/-- IEEE `<=` (any comparison involving `nan` is false). -/
def le : Val → Val → Bool
  | nan, _ => false
  | _, nan => false
  | neginf, _ => true
  | _, inf => true
  | fin a, fin b => decide (a ≤ b)
  | inf, _ => false
  | fin _, neginf => false

/-- IEEE `>=`, as used by the VM's `IfLt` test `mem[ra] >= mem[rb]`. -/
def ge (a b : Val) : Bool := le b a

/-- IEEE `<`. -/
def lt (a b : Val) : Bool := le a b && !(le b a)

/-- IEEE `>`, as used by tournament survival's `opp.fitness > mem.fitness`. -/
def gt (a b : Val) : Bool := lt b a

/-- IEEE negation. -/
def neg : Val → Val
  | fin a => fin (-a)
  | inf => neginf
  | neginf => inf
  | nan => nan

/-- `f64::abs`. -/
def abs : Val → Val
  | fin a => fin |a|
  | inf => inf
  | neginf => inf
  | nan => nan

/-- IEEE addition (exact on finite values; `inf + neginf = nan`). -/
def add : Val → Val → Val
  | nan, _ => nan
  | _, nan => nan
  | fin a, fin b => fin (a + b)
  | inf, neginf => nan
  | neginf, inf => nan
  | inf, _ => inf
  | _, inf => inf
  | neginf, _ => neginf
  | _, neginf => neginf

/-- IEEE subtraction. -/
def sub (a b : Val) : Val := add a (neg b)

/-- IEEE multiplication (exact on finite values; `inf * 0 = nan`;
the sign of zero is not modelled). -/
def mul : Val → Val → Val
  | nan, _ => nan
  | _, nan => nan
  | fin a, fin b => fin (a * b)
  | inf, inf => inf
  | inf, neginf => neginf
  | neginf, inf => neginf
  | neginf, neginf => inf
  | inf, fin a => if a = 0 then nan else if 0 < a then inf else neginf
  | fin a, inf => if a = 0 then nan else if 0 < a then inf else neginf
  | neginf, fin a => if a = 0 then nan else if 0 < a then neginf else inf
  | fin a, neginf => if a = 0 then nan else if 0 < a then neginf else inf

/-- IEEE division (exact on finite values; division of a nonzero finite
value by zero yields an infinity, `0/0 = nan`; the sign of zero is not
modelled). -/
def div : Val → Val → Val
  | nan, _ => nan
  | _, nan => nan
  | fin a, fin b =>
      if b = 0 then (if a = 0 then nan else if 0 < a then inf else neginf)
      else fin (a / b)
  | fin _, inf => fin 0
  | fin _, neginf => fin 0
  | inf, fin b => if 0 ≤ b then inf else neginf
  | neginf, fin b => if 0 ≤ b then neginf else inf
  | inf, _ => nan
  | neginf, _ => nan

/-- Stand-in for `f64::powf`.  Only the natural-power fragment is given a
value; everything else is `nan`.  No theorem below depends on this
function's value, only on the fact that the VM checks `is_finite` on it. -/
def pw : Val → Val → Val
  | fin a, fin b =>
      if b.den = 1 && decide (0 ≤ b.num) then fin (a ^ b.num.toNat) else nan
  | _, _ => nan

/-- Stand-in for `f64::ln`.  `ln 0 = -inf` and `ln` of a negative value is
`nan` as in IEEE; the (irrational) value on positive arguments is
abstracted to `0`.  No theorem depends on the abstracted value. -/
def ln : Val → Val
  | fin a => if a = 0 then neginf else if a < 0 then nan else fin 0
  | inf => inf
  | neginf => nan
  | nan => nan

/-- Stand-in for `f64::sin`: finite (abstracted to `0`) on finite
arguments, `nan` on the special values, as in IEEE. -/
def sn : Val → Val
  | fin _ => fin 0
  | _ => nan

/-- Stand-in for `f64::cos`: finite (abstracted to `0`) on finite
arguments, `nan` on the special values, as in IEEE. -/
def cs : Val → Val
  | fin _ => fin 0
  | _ => nan

end Val

/-!
## The LGP instruction set

`src/src/evaluators/lgp/vm/op.rs` and `opcode.rs` in the source tree are a
stale historical variant (opcodes `Nop`/`Jlt`/`Jle`/`Jeq`, a raw
`data: [u8; 3]` payload) that does not type-check against the delivered
`lgpvm.rs`, `optimize.rs` and `asm.rs`, which use `Op::from_code`,
`op.code()`, `op.operands()` and the `Operands` variants
`Reg2Cmp/Reg2Assign/Reg3Assign/ImmAssign`.  The current `Op`/`Opcode`
types are therefore modelled from the spec (§3 "Op (LGP instruction)")
and from their uses in the delivered `asm.rs`, `lgpvm.rs` and
`optimize.rs`.
-/

/-- Modelled from the spec: the closed opcode set of the current VM
(spec §3; mnemonic list in `asm.rs`). -/
inductive Opcode where
  | add | sub | mul | div | pow
  | abs | neg | ln | sin | cos | copy
  | load
  | iflt
  deriving DecidableEq, Repr

/-- Modelled from the spec: the four operand shapes (spec §3; field names
from `asm.rs`).  Register indices are `u8` in the source, modelled as `ℕ`;
the `Load` immediate is an `f32`, modelled as a rational. -/
inductive Operands where
  | reg2Cmp (ra rb : ℕ)
  | reg2Assign (ri ra : ℕ)
  | reg3Assign (ri ra rb : ℕ)
  | immAssign (ri : ℕ) (imm : ℚ)
  deriving DecidableEq, Repr

/-- An LGP instruction: opcode plus operand payload (`Op` in the source). -/
structure Op where
  code : Opcode
  operands : Operands
  deriving DecidableEq, Repr

/-- `Opcode::is_branch`: only `IfLt` is a branch in the current VM. -/
def Opcode.isBranch : Opcode → Bool
  | .iflt => true
  | _ => false

/-- Modelled from the spec: `Operands::output_regs` — the registers an
instruction writes (the assignment destination; a compare writes none). -/
def Operands.outputRegs : Operands → List ℕ
  | .reg2Cmp _ _ => []
  | .reg2Assign ri _ => [ri]
  | .reg3Assign ri _ _ => [ri]
  | .immAssign ri _ => [ri]

/-- Modelled from the spec: `Operands::input_regs` — the registers an
instruction reads. -/
def Operands.inputRegs : Operands → List ℕ
  | .reg2Cmp ra rb => [ra, rb]
  | .reg2Assign _ ra => [ra]
  | .reg3Assign _ ra rb => [ra, rb]
  | .immAssign _ _ => []

/-!
## The LGP virtual machine (`lgpvm.rs`)
-/

/-- VM state: program, number of writable registers, program counter and
memory (`LgpVm` in `lgpvm.rs`; `mem` is registers followed by the
read-only constants). -/
structure LgpVm where
  code : List Op
  numReg : ℕ
  pc : ℕ
  mem : List Val
  deriving DecidableEq, Repr

/-- Reading memory cell `idx` (`LgpVm::mem`).  The source indexes the
memory vector directly (panicking out of range); the model totalises the
read with default `0`, which agrees with the source on all in-range
accesses. -/
def readMem (mem : List Val) (idx : ℕ) : Val := mem.getD idx (.fin 0)

/-- Extracts the compare operands when the instruction is the `IfLt`
branch arm of `LgpVm::step`, and `none` for the assignment arms. -/
def branchArgs (op : Op) : Option (ℕ × ℕ) :=
  match op.code, op.operands with
  | .iflt, .reg2Cmp ra rb => some (ra, rb)
  | _, _ => none

/-- The destination, value and finiteness-gate of an assignment
instruction on the given memory — one entry per arm of `LgpVm::step`.
The boolean records whether the source checks `v.is_finite()` before
writing (`Add/Sub/Mul/Div/Pow/Ln/Sin/Cos`) or writes unconditionally
(`Abs/Neg/Load/Copy`).  Combinations of opcode and operand shape that the
source's `match` would panic on produce `none` (modelled as a no-op;
well-formed programs never contain them). -/
def assignSpec (op : Op) (mem : List Val) : Option (ℕ × Val × Bool) :=
  match op.code, op.operands with
  | .add, .reg3Assign ri ra rb => some (ri, (readMem mem ra).add (readMem mem rb), true)
  | .sub, .reg3Assign ri ra rb => some (ri, (readMem mem ra).sub (readMem mem rb), true)
  | .mul, .reg3Assign ri ra rb => some (ri, (readMem mem ra).mul (readMem mem rb), true)
  | .div, .reg3Assign ri ra rb => some (ri, (readMem mem ra).div (readMem mem rb), true)
  | .pow, .reg3Assign ri ra rb => some (ri, (readMem mem ra).pw (readMem mem rb), true)
  | .abs, .reg2Assign ri ra => some (ri, (readMem mem ra).abs, false)
  | .neg, .reg2Assign ri ra => some (ri, (readMem mem ra).neg, false)
  | .ln, .reg2Assign ri ra => some (ri, (readMem mem ra).ln, true)
  | .sin, .reg2Assign ri ra => some (ri, (readMem mem ra).sn, true)
  | .cos, .reg2Assign ri ra => some (ri, (readMem mem ra).cs, true)
  | .load, .immAssign ri imm => some (ri, .fin imm, false)
  | .copy, .reg2Assign ri ra => some (ri, readMem mem ra, false)
  | _, _ => none

/-- The memory effect of one assignment instruction: write the computed
value to the destination unless the finiteness gate fails or the
destination is in the read-only constant range
(`LgpVm::is_constant(ri)`, i.e. `numReg <= ri`). -/
def execOp (numReg : ℕ) (op : Op) (mem : List Val) : List Val :=
  match assignSpec op mem with
  | none => mem
  | some (ri, v, gate) =>
      if (!gate || v.isFinite) && decide (ri < numReg) then mem.set ri v else mem

/-- One step of the `IfLt` skip loop of `LgpVm::step`: starting at
position `p`, fetch instructions while they are branches; the fetch of
the first non-branch (or running off the end) stops the loop.  Fuelled
recursion (the fuel `code.length - p` always suffices). -/
def skipFromA (code : List Op) : ℕ → ℕ → ℕ
  | 0, p => p
  | fuel + 1, p =>
      match code.get? p with
      | none => p
      | some op => if op.code.isBranch then skipFromA code fuel (p + 1) else p + 1

/-- The program counter after the `IfLt` skip loop starting at `p`. -/
def skipFrom (code : List Op) (p : ℕ) : ℕ := skipFromA code (code.length - p) p

/-- `LgpVm::step`: fetch the instruction at `pc` (finishing, i.e.
returning `none`, when `pc` is past the end); a branch tests
`mem[ra] >= mem[rb]` and on success skips via the skip loop, otherwise
falls through; an assignment executes `execOp`. -/
def LgpVm.step (vm : LgpVm) : Option LgpVm :=
  match vm.code.get? vm.pc with
  | none => none
  | some op =>
      some (match branchArgs op with
      | some (ra, rb) =>
          if (readMem vm.mem ra).ge (readMem vm.mem rb)
          then { vm with pc := skipFrom vm.code (vm.pc + 1) }
          else { vm with pc := vm.pc + 1 }
      | none => { vm with pc := vm.pc + 1, mem := execOp vm.numReg op vm.mem })

/-- Iterating `LgpVm::step` (a finished VM stays put). -/
def LgpVm.stepN : ℕ → LgpVm → LgpVm
  | 0, vm => vm
  | n + 1, vm =>
      match vm.step with
      | none => vm
      | some vm2 => LgpVm.stepN n vm2

/-- `LgpVm::run`: step until finished.  `code.length + 1` steps always
suffice (the pc strictly increases on every step), so the loop is
modelled with that step budget. -/
def LgpVm.run (vm : LgpVm) : LgpVm := LgpVm.stepN (vm.code.length + 1) vm

/-- `LgpVm::new`: memory is the initial register values followed by the
constants; `num_reg` is the number of register values (`lgpvm.rs`). -/
def LgpVm.new (code : List Op) (regs consts : List Val) : LgpVm :=
  { code := code, numReg := regs.length, pc := 0, mem := regs ++ consts }

/-!
## Basic VM lemmas
-/

theorem readMem_set_ne (mem : List Val) (r i : ℕ) (v : Val) (h : i ≠ r) :
    readMem (mem.set r v) i = readMem mem i := by
  simp [readMem, List.getD_eq_getElem?_getD, List.getElem?_set_ne (Ne.symm h)]

theorem readMem_set_self (mem : List Val) (r : ℕ) (v : Val) (h : r < mem.length) :
    readMem (mem.set r v) r = v := by
  simp [readMem, List.getD_eq_getElem?_getD, List.getElem?_set_self h]

theorem execOp_length (numReg : ℕ) (op : Op) (mem : List Val) :
    (execOp numReg op mem).length = mem.length := by
  unfold execOp
  cases assignSpec op mem with
  | none => rfl
  | some x =>
    obtain ⟨ri, v, g⟩ := x
    dsimp only
    split <;> simp

theorem assignSpec_dest (op : Op) (mem : List Val) (ri : ℕ) (v : Val) (g : Bool)
    (h : assignSpec op mem = some (ri, v, g)) : op.operands.outputRegs = [ri] := by
  obtain ⟨c, o⟩ := op
  cases c <;> cases o <;> simp_all [assignSpec, Operands.outputRegs]

theorem execOp_const (numReg : ℕ) (op : Op) (mem : List Val) (i : ℕ) (h : numReg ≤ i) :
    readMem (execOp numReg op mem) i = readMem mem i := by
  unfold execOp
  cases hs : assignSpec op mem with
  | none => rfl
  | some x =>
    obtain ⟨ri, v, g⟩ := x
    dsimp only
    split
    · next hcond =>
      simp only [Bool.and_eq_true, decide_eq_true_eq] at hcond
      have h2 := hcond.2
      exact readMem_set_ne mem ri i v (by omega)
    · rfl

theorem execOp_untouched (numReg : ℕ) (op : Op) (mem : List Val) (i : ℕ)
    (h : i ∉ op.operands.outputRegs) :
    readMem (execOp numReg op mem) i = readMem mem i := by
  unfold execOp
  cases hs : assignSpec op mem with
  | none => rfl
  | some x =>
    obtain ⟨ri, v, g⟩ := x
    have hd := assignSpec_dest op mem ri v g hs
    rw [hd] at h
    simp only [List.mem_singleton] at h
    dsimp only
    split
    · exact readMem_set_ne mem ri i v h
    · rfl

theorem skipFromA_ge (code : List Op) :
    ∀ fuel p, p ≤ skipFromA code fuel p := by
  intro fuel
  induction fuel with
  | zero => intro p; simp [skipFromA]
  | succ n ih =>
    intro p
    rw [skipFromA]
    cases code.get? p with
    | none => exact Nat.le_refl p
    | some op =>
      dsimp only
      split
      · exact Nat.le_trans (Nat.le_succ p) (ih (p + 1))
      · omega

theorem skipFrom_ge (code : List Op) (p : ℕ) : p ≤ skipFrom code p :=
  skipFromA_ge code (code.length - p) p

theorem step_pc_lt (vm vm2 : LgpVm) (h : vm.step = some vm2) :
    vm.pc < vm2.pc ∧ vm2.code = vm.code ∧ vm2.numReg = vm.numReg := by
  unfold LgpVm.step at h
  cases hg : vm.code.get? vm.pc with
  | none => rw [hg] at h; cases h
  | some op =>
    rw [hg] at h
    simp only [Option.some.injEq] at h
    cases hb : branchArgs op with
    | some pr =>
      obtain ⟨ra, rb⟩ := pr
      rw [hb] at h
      dsimp only at h
      split at h <;> subst h
      · refine ⟨?_, rfl, rfl⟩
        have := skipFrom_ge vm.code (vm.pc + 1)
        simpa using Nat.lt_of_lt_of_le (Nat.lt_succ_self vm.pc) this
      · exact ⟨Nat.lt_succ_self _, rfl, rfl⟩
    | none =>
      rw [hb] at h
      subst h
      exact ⟨Nat.lt_succ_self _, rfl, rfl⟩

theorem step_none_iff (vm : LgpVm) : vm.step = none ↔ vm.code.length ≤ vm.pc := by
  constructor
  · intro h
    by_contra hlt
    push_neg at hlt
    unfold LgpVm.step at h
    rw [List.get?_eq_getElem?, List.getElem?_eq_getElem hlt] at h
    cases h
  · intro h
    unfold LgpVm.step
    rw [List.get?_eq_getElem?, List.getElem?_eq_none h]

theorem stepN_code (n : ℕ) (vm : LgpVm) : (LgpVm.stepN n vm).code = vm.code := by
  induction n generalizing vm with
  | zero => rfl
  | succ m ih =>
    rw [LgpVm.stepN]
    cases h : vm.step with
    | none => rfl
    | some vm2 =>
      rw [ih vm2, (step_pc_lt vm vm2 h).2.1]

theorem stepN_pc_ge (n : ℕ) (vm : LgpVm) :
    min vm.code.length (vm.pc + n) ≤ (LgpVm.stepN n vm).pc := by
  induction n generalizing vm with
  | zero => simp [LgpVm.stepN]
  | succ m ih =>
    rw [LgpVm.stepN]
    cases h : vm.step with
    | none =>
      simp only [h]
      have := (step_none_iff vm).mp h
      omega
    | some vm2 =>
      simp only [h]
      obtain ⟨h1, h2, _⟩ := step_pc_lt vm vm2 h
      have := ih vm2
      rw [h2] at this
      omega

theorem skipFromA_spec (code : List Op) :
    ∀ fuel p, code.length ≤ p + fuel → p ≤ code.length →
      skipFromA code fuel p =
        min (p + 1 + (code.drop p).findIdx (fun op => !op.code.isBranch)) code.length := by
  intro fuel
  induction fuel with
  | zero =>
    intro p h1 h2
    have hp : p = code.length := by omega
    subst hp
    simp [skipFromA, List.drop_length]
  | succ n ih =>
    intro p h1 h2
    rcases Nat.lt_or_ge p code.length with hlt | hge
    · rw [skipFromA]
      have hg : code.get? p = some code[p] := by
        rw [List.get?_eq_getElem?, List.getElem?_eq_getElem hlt]
      rw [hg]
      have hd : code.drop p = code[p] :: code.drop (p + 1) := List.drop_eq_getElem_cons hlt
      rw [hd, List.findIdx_cons]
      dsimp only
      by_cases hb : code[p].code.isBranch = true
      · rw [if_pos hb, ih (p + 1) (by omega) (by omega)]
        simp only [hb, Bool.not_true, cond_false]
        have harith : p + 1 + 1 + List.findIdx (fun op => !op.code.isBranch)
            (List.drop (p + 1) code) = p + 1 +
            (List.findIdx (fun op => !op.code.isBranch) (List.drop (p + 1) code) + 1) := by
          omega
        rw [harith]
      · rw [if_neg hb]
        simp only [Bool.not_eq_true] at hb
        simp only [hb, Bool.not_false, cond_true]
        omega
    · have hp : p = code.length := by omega
      subst hp
      have hg : code.get? code.length = none := by
        rw [List.get?_eq_getElem?]
        exact List.getElem?_eq_none (Nat.le_refl _)
      rw [skipFromA, hg]
      simp [List.drop_length]

theorem skipFrom_spec (code : List Op) (p : ℕ) (h : p ≤ code.length) :
    skipFrom code p =
      min (p + 1 + (code.drop p).findIdx (fun op => !op.code.isBranch)) code.length :=
  skipFromA_spec code (code.length - p) p (by omega) h

theorem Val.lt_ge_false (a b : Val) (h : a.lt b = true) : a.ge b = false := by
  unfold Val.lt at h
  unfold Val.ge
  cases hba : Val.le b a <;> simp_all

/-!
## Claim theorems about the VM
-/

/-- C7: every VM execution terminates: each successful step strictly
increases the program counter (it is never set backwards), and for any
program and initial memory, starting from `pc = 0` the VM is finished
(`step` returns `none`) after at most `code.length` productive steps, so
`LgpVm::run` finishes after at most `code.length + 1` calls to `step`. -/
theorem lgpvm_terminates :
    (∀ vm vm2 : LgpVm, vm.step = some vm2 → vm.pc < vm2.pc) ∧
    ∀ vm : LgpVm, vm.pc = 0 → (LgpVm.stepN vm.code.length vm).step = none := by
  constructor
  · intro vm vm2 h
    exact (step_pc_lt vm vm2 h).1
  · intro vm h0
    have h1 := stepN_pc_ge vm.code.length vm
    rw [h0] at h1
    rw [step_none_iff, stepN_code]
    omega

theorem lgpvm_terminates_witness :
    ((LgpVm.new [⟨.copy, .reg2Assign 0 1⟩] [.fin 1, .fin 2] []).pc <
      ({ code := [⟨.copy, .reg2Assign 0 1⟩], numReg := 2, pc := 1,
         mem := [.fin 2, .fin 2] } : LgpVm).pc) ∧
    (LgpVm.stepN (LgpVm.new [⟨.copy, .reg2Assign 0 1⟩] [.fin 1, .fin 2] []).code.length
      (LgpVm.new [⟨.copy, .reg2Assign 0 1⟩] [.fin 1, .fin 2] [])).step = none :=
  ⟨lgpvm_terminates.1 _ _ (by decide), lgpvm_terminates.2 _ (by decide)⟩

/-- C6: executing `IfLt ra, rb`: memory is unchanged; if
`mem[ra] >= mem[rb]` (predicate false) the program counter advances past
the subsequent run of branch instructions and the first non-branch
instruction after it (the index of the first non-branch after `pc` is
expressed with `findIdx`; the `min` caps the counter at the end of the
program when the run reaches it); if `mem[ra] < mem[rb]` execution
continues at the immediately following instruction. -/
theorem iflt_semantics (vm : LgpVm) (ra rb : ℕ)
    (hop : vm.code.get? vm.pc = some ⟨.iflt, .reg2Cmp ra rb⟩) :
    ∃ vm2, vm.step = some vm2 ∧ vm2.mem = vm.mem ∧
      ((readMem vm.mem ra).ge (readMem vm.mem rb) = true →
        vm2.pc = min (vm.pc + 2 +
          (vm.code.drop (vm.pc + 1)).findIdx (fun op => !op.code.isBranch))
          vm.code.length) ∧
      ((readMem vm.mem ra).lt (readMem vm.mem rb) = true → vm2.pc = vm.pc + 1) := by
  have hpc : vm.pc < vm.code.length := by
    rcases Nat.lt_or_ge vm.pc vm.code.length with h | h
    · exact h
    · rw [List.get?_eq_getElem?, List.getElem?_eq_none h] at hop
      cases hop
  unfold LgpVm.step
  rw [hop]
  simp only [branchArgs]
  by_cases hge : (readMem vm.mem ra).ge (readMem vm.mem rb)
  · refine ⟨_, rfl, ?_, ?_, ?_⟩
    · simp [hge]
    · intro _
      simp only [hge, if_true]
      rw [skipFrom_spec vm.code (vm.pc + 1) (by omega)]
    · intro hlt
      rw [Val.lt_ge_false _ _ hlt] at hge
      cases hge
  · refine ⟨_, rfl, ?_, ?_, ?_⟩
    · simp [hge]
    · intro h
      exact absurd h hge
    · intro _
      simp only [Bool.not_eq_true] at hge
      simp [hge]

theorem iflt_semantics_witness :
    ∃ vm2, (LgpVm.new [⟨.iflt, .reg2Cmp 0 1⟩, ⟨.copy, .reg2Assign 0 1⟩]
        [.fin 3, .fin 2] []).step = some vm2 ∧
      vm2.mem = (LgpVm.new [⟨.iflt, .reg2Cmp 0 1⟩, ⟨.copy, .reg2Assign 0 1⟩]
        [.fin 3, .fin 2] []).mem := by
  obtain ⟨vm2, h1, h2, _, _⟩ :=
    iflt_semantics (LgpVm.new [⟨.iflt, .reg2Cmp 0 1⟩, ⟨.copy, .reg2Assign 0 1⟩]
      [.fin 3, .fin 2] []) 0 1 (by decide)
  exact ⟨vm2, h1, h2⟩

/-- C9: one VM step never writes to the constant range: every memory cell
at an address `>= num_reg` (which includes the constant range
`[num_reg, num_reg + num_const)`) keeps its value, and any cell that
changes at all is the destination register of the fetched instruction and
lies below `num_reg` — a write whose destination is in the constant range
is silently dropped, and no instruction modifies any cell other than its
destination. -/
theorem step_frame (vm vm2 : LgpVm) (h : vm.step = some vm2) :
    vm2.mem.length = vm.mem.length ∧
    (∀ i, vm.numReg ≤ i → readMem vm2.mem i = readMem vm.mem i) ∧
    (∀ i, readMem vm2.mem i ≠ readMem vm.mem i →
      ∃ op, vm.code.get? vm.pc = some op ∧ op.operands.outputRegs = [i] ∧
        i < vm.numReg) := by
  unfold LgpVm.step at h
  cases hg : vm.code.get? vm.pc with
  | none => rw [hg] at h; cases h
  | some op =>
    rw [hg] at h
    simp only [Option.some.injEq] at h
    cases hb : branchArgs op with
    | some pr =>
      obtain ⟨ra, rb⟩ := pr
      rw [hb] at h
      dsimp only at h
      split at h <;> subst h <;>
        exact ⟨rfl, fun i _ => rfl, fun i hne => absurd rfl hne⟩
    | none =>
      rw [hb] at h
      subst h
      refine ⟨execOp_length _ _ _, fun i hi => execOp_const _ _ _ i hi, ?_⟩
      intro i hne
      dsimp only at hne ⊢
      cases hs : assignSpec op vm.mem with
      | none =>
        rw [execOp, hs] at hne
        exact absurd rfl hne
      | some x =>
        obtain ⟨ri, v, g⟩ := x
        have hd := assignSpec_dest op vm.mem ri v g hs
        by_cases hi : i = ri
        · subst hi
          refine ⟨op, rfl, hd, ?_⟩
          rw [execOp, hs] at hne
          dsimp only at hne
          split at hne
          · next hcond =>
            simp only [Bool.and_eq_true, decide_eq_true_eq] at hcond
            exact hcond.2
          · exact absurd rfl hne
        · have := execOp_untouched vm.numReg op vm.mem i (by rw [hd]; simp [hi])
          exact absurd this hne

/-!
## Suffix-style execution semantics

`LgpVm::run` only ever moves the program counter forward, so the
execution of the VM from position `pc` depends only on the suffix
`code.drop pc` of the program.  `execCode` re-expresses the run as a
recursion over that suffix (the bridge theorem `stepN_mem_eq` proves it
agrees with the step machine); the equivalence proof for the dead-code
pass is carried out against it.  The recursion is fuelled (the fuel
`code.length` always suffices) so that concrete programs evaluate by
`decide`.
-/

/-- The effect of one `IfLt` skip on the instruction suffix following the
branch: drop the run of branch instructions and the first non-branch. -/
def skipChain : List Op → List Op
  | [] => []
  | op :: rest => if op.code.isBranch then skipChain rest else rest

theorem skipChain_length_le : ∀ l : List Op, (skipChain l).length ≤ l.length := by
  intro l
  induction l with
  | nil => simp [skipChain]
  | cons op rest ih =>
    rw [skipChain]
    split
    · exact Nat.le_trans ih (Nat.le_succ _)
    · exact Nat.le_succ _

theorem skipChain_all (P : Op → Bool) :
    ∀ l : List Op, l.all P = true → (skipChain l).all P = true := by
  intro l
  induction l with
  | nil => simp [skipChain]
  | cons op rest ih =>
    intro h
    rw [List.all_cons, Bool.and_eq_true] at h
    rw [skipChain]
    split
    · exact ih h.2
    · exact h.2

/-- Whether the finiteness gate of the instruction at the head of the
execution admits the computed value (`true` also for ungated
instructions and branches). -/
def opValueOk (op : Op) (mem : List Val) : Bool :=
  match assignSpec op mem with
  | some (_, v, true) => v.isFinite
  | _ => true

/-- Fuelled body of `execCode`. -/
def execCodeA (numReg : ℕ) : ℕ → List Op → List Val → List Val
  | 0, _, mem => mem
  | _ + 1, [], mem => mem
  | fuel + 1, op :: rest, mem =>
    match branchArgs op with
    | some (ra, rb) =>
        if (readMem mem ra).ge (readMem mem rb)
        then execCodeA numReg fuel (skipChain rest) mem
        else execCodeA numReg fuel rest mem
    | none => execCodeA numReg fuel rest (execOp numReg op mem)

/-- The final memory after running the instruction suffix `code` on
memory `mem`. -/
def execCode (numReg : ℕ) (code : List Op) (mem : List Val) : List Val :=
  execCodeA numReg code.length code mem

/-- Fuelled body of `execOk`. -/
def execOkA (numReg : ℕ) : ℕ → List Op → List Val → Bool
  | 0, _, _ => true
  | _ + 1, [], _ => true
  | fuel + 1, op :: rest, mem =>
    match branchArgs op with
    | some (ra, rb) =>
        if (readMem mem ra).ge (readMem mem rb)
        then execOkA numReg fuel (skipChain rest) mem
        else execOkA numReg fuel rest mem
    | none => opValueOk op mem && execOkA numReg fuel rest (execOp numReg op mem)

/-- `execOk` records whether an execution ever computes a non-finite
value at a finiteness-gated instruction (in which case the VM silently
drops the write). -/
def execOk (numReg : ℕ) (code : List Op) (mem : List Val) : Bool :=
  execOkA numReg code.length code mem

theorem execCodeA_fuel_irrel (numReg : ℕ) :
    ∀ f1 f2 code mem, code.length ≤ f1 → code.length ≤ f2 →
      execCodeA numReg f1 code mem = execCodeA numReg f2 code mem := by
  intro f1
  induction f1 with
  | zero =>
    intro f2 code mem h1 _
    rw [List.length_eq_zero.mp (Nat.le_zero.mp h1)]
    cases f2 <;> rfl
  | succ n ih =>
    intro f2 code mem h1 h2
    cases code with
    | nil => cases f2 <;> rfl
    | cons op rest =>
      cases f2 with
      | zero => simp at h2
      | succ m =>
        simp only [List.length_cons, Nat.succ_le_succ_iff] at h1 h2
        rw [execCodeA, execCodeA]
        cases branchArgs op with
        | some pr =>
          obtain ⟨ra, rb⟩ := pr
          dsimp only
          split
          · exact ih m (skipChain rest) mem
              (Nat.le_trans (skipChain_length_le rest) h1)
              (Nat.le_trans (skipChain_length_le rest) h2)
          · exact ih m rest mem h1 h2
        | none => exact ih m rest (execOp numReg op mem) h1 h2

theorem execOkA_fuel_irrel (numReg : ℕ) :
    ∀ f1 f2 code mem, code.length ≤ f1 → code.length ≤ f2 →
      execOkA numReg f1 code mem = execOkA numReg f2 code mem := by
  intro f1
  induction f1 with
  | zero =>
    intro f2 code mem h1 _
    rw [List.length_eq_zero.mp (Nat.le_zero.mp h1)]
    cases f2 <;> rfl
  | succ n ih =>
    intro f2 code mem h1 h2
    cases code with
    | nil => cases f2 <;> rfl
    | cons op rest =>
      cases f2 with
      | zero => simp at h2
      | succ m =>
        simp only [List.length_cons, Nat.succ_le_succ_iff] at h1 h2
        rw [execOkA, execOkA]
        cases branchArgs op with
        | some pr =>
          obtain ⟨ra, rb⟩ := pr
          dsimp only
          split
          · exact ih m (skipChain rest) mem
              (Nat.le_trans (skipChain_length_le rest) h1)
              (Nat.le_trans (skipChain_length_le rest) h2)
          · exact ih m rest mem h1 h2
        | none => rw [ih m rest (execOp numReg op mem) h1 h2]

theorem execCode_cons (numReg : ℕ) (op : Op) (rest : List Op) (mem : List Val) :
    execCode numReg (op :: rest) mem =
      match branchArgs op with
      | some (ra, rb) =>
          if (readMem mem ra).ge (readMem mem rb)
          then execCode numReg (skipChain rest) mem
          else execCode numReg rest mem
      | none => execCode numReg rest (execOp numReg op mem) := by
  show execCodeA numReg (rest.length + 1) (op :: rest) mem = _
  rw [execCodeA]
  cases branchArgs op with
  | some pr =>
    obtain ⟨ra, rb⟩ := pr
    dsimp only
    split
    · exact execCodeA_fuel_irrel numReg rest.length (skipChain rest).length
        (skipChain rest) mem (skipChain_length_le rest) (Nat.le_refl _)
    · rfl
  | none => rfl

theorem execOk_cons (numReg : ℕ) (op : Op) (rest : List Op) (mem : List Val) :
    execOk numReg (op :: rest) mem =
      match branchArgs op with
      | some (ra, rb) =>
          if (readMem mem ra).ge (readMem mem rb)
          then execOk numReg (skipChain rest) mem
          else execOk numReg rest mem
      | none => opValueOk op mem && execOk numReg rest (execOp numReg op mem) := by
  show execOkA numReg (rest.length + 1) (op :: rest) mem = _
  rw [execOkA]
  cases branchArgs op with
  | some pr =>
    obtain ⟨ra, rb⟩ := pr
    dsimp only
    split
    · exact execOkA_fuel_irrel numReg rest.length (skipChain rest).length
        (skipChain rest) mem (skipChain_length_le rest) (Nat.le_refl _)
    · rfl
  | none => rfl

/-!
## The dead-code pass (`optimize.rs`)
-/

/-- The state threaded through the reverse pass of
`LgpOptimizer::optimize` when it has processed a suffix of the program:
the effective-register set at the entry of the suffix, whether the first
instruction of the suffix was kept (`next_effective`), its output
registers (`next_output_regs`), and the optimized suffix. -/
structure OptState where
  eff : ℕ → Bool
  kept : Bool
  outs : List ℕ
  code : List Op

/-- Clearing the processed instruction's output registers from the
effective set (`eff_regs[output] = false` for each output that was set;
clearing an unset entry is a no-op, so the clear is unconditional here). -/
def optClear (op : Op) (s : OptState) : ℕ → Bool :=
  fun r => if op.operands.outputRegs.contains r then false else s.eff r

/-- Whether the processed instruction is kept: it writes an effective
register, or it is a branch and the following instruction was kept. -/
def optEffective (op : Op) (s : OptState) : Bool :=
  op.operands.outputRegs.any s.eff || (s.kept && op.code.isBranch)

/-- The branch rule: a branch directly before a kept instruction restores
that instruction's output registers (the branch may cause the guarded
write to be skipped, exposing the earlier value). -/
def optRestore (op : Op) (s : OptState) : ℕ → Bool :=
  if s.kept && op.code.isBranch
  then fun r => s.outs.contains r || optClear op s r
  else optClear op s

/-- A kept instruction's input registers become effective. -/
def optInputs (op : Op) (s : OptState) : ℕ → Bool :=
  if optEffective op s
  then fun r => op.operands.inputRegs.contains r || optRestore op s r
  else optRestore op s

/-- The reverse pass of `LgpOptimizer::optimize`, expressed as a right
fold: processing `op :: rest` first processes `rest` (the instructions
after `op`, which the source's reverse iteration visits first) and then
`op`. -/
def optAux (outputRegs : List ℕ) : List Op → OptState
  | [] => ⟨fun r => outputRegs.contains r, false, [], []⟩
  | op :: rest =>
    let s := optAux outputRegs rest
    ⟨optInputs op s, optEffective op s, op.operands.outputRegs,
     if optEffective op s then op :: s.code else s.code⟩

/-- `LgpOptimizer::optimize`: the kept instructions, in program order. -/
def LgpOptimizer.optimize (code : List Op) (outputRegs : List ℕ) : List Op :=
  (optAux outputRegs code).code

/-- An instruction whose operand shape matches its opcode.  The source's
`LgpVm::step` panics on any other combination, and neither the assembler
nor the random generators produce one. -/
def Op.shapeOk (op : Op) : Bool :=
  match op.code, op.operands with
  | .add, .reg3Assign .. | .sub, .reg3Assign .. | .mul, .reg3Assign ..
  | .div, .reg3Assign .. | .pow, .reg3Assign .. => true
  | .abs, .reg2Assign .. | .neg, .reg2Assign .. | .ln, .reg2Assign ..
  | .sin, .reg2Assign .. | .cos, .reg2Assign .. | .copy, .reg2Assign .. => true
  | .load, .immAssign .. => true
  | .iflt, .reg2Cmp .. => true
  | _, _ => false

theorem step_frame_witness :
    readMem ({ code := [⟨.copy, .reg2Assign 0 1⟩], numReg := 2, pc := 1,
               mem := [.fin 2, .fin 2, .fin 3] } : LgpVm).mem 2 =
      readMem (LgpVm.new [⟨.copy, .reg2Assign 0 1⟩] [.fin 0, .fin 2] [.fin 3]).mem 2 :=
  (step_frame _ _ (by decide)).2.1 2 (by decide)

theorem contains_true_iff (l : List ℕ) (r : ℕ) : l.contains r = true ↔ r ∈ l := by
  simp [List.contains]

theorem branchArgs_eq_some (op : Op) (ra rb : ℕ) (h : branchArgs op = some (ra, rb)) :
    op = ⟨.iflt, .reg2Cmp ra rb⟩ := by
  obtain ⟨c, o⟩ := op
  cases c <;> cases o <;> simp_all [branchArgs]

theorem shapeOk_branch (op : Op) (h : op.shapeOk = true) (hb : op.code.isBranch = true) :
    ∃ ra rb, op = ⟨.iflt, .reg2Cmp ra rb⟩ := by
  obtain ⟨c, o⟩ := op
  cases c <;> cases o <;> first
    | exact ⟨_, _, rfl⟩
    | simp_all [Op.shapeOk, Opcode.isBranch]

theorem shapeOk_assign (op : Op) (h : op.shapeOk = true) (hb : branchArgs op = none)
    (mem : List Val) :
    op.code.isBranch = false ∧ ∃ ri v g, assignSpec op mem = some (ri, v, g) := by
  obtain ⟨c, o⟩ := op
  cases c <;> cases o <;> first
    | exact ⟨rfl, _, _, _, rfl⟩
    | simp_all [Op.shapeOk, branchArgs]

theorem optAux_nil_eff (outputRegs : List ℕ) (r : ℕ) :
    (optAux outputRegs []).eff r = outputRegs.contains r := rfl

theorem optAux_nil_kept (outputRegs : List ℕ) : (optAux outputRegs []).kept = false := rfl

theorem optAux_nil_code (outputRegs : List ℕ) : (optAux outputRegs []).code = [] := rfl

theorem optAux_cons_eff (outputRegs : List ℕ) (op : Op) (rest : List Op) :
    (optAux outputRegs (op :: rest)).eff = optInputs op (optAux outputRegs rest) := rfl

theorem optAux_cons_kept (outputRegs : List ℕ) (op : Op) (rest : List Op) :
    (optAux outputRegs (op :: rest)).kept = optEffective op (optAux outputRegs rest) := rfl

theorem optAux_cons_outs (outputRegs : List ℕ) (op : Op) (rest : List Op) :
    (optAux outputRegs (op :: rest)).outs = op.operands.outputRegs := rfl

theorem optAux_cons_code (outputRegs : List ℕ) (op : Op) (rest : List Op) :
    (optAux outputRegs (op :: rest)).code =
      if optEffective op (optAux outputRegs rest)
      then op :: (optAux outputRegs rest).code
      else (optAux outputRegs rest).code := rfl

theorem optEffective_branchop (ra rb : ℕ) (s : OptState) :
    optEffective ⟨.iflt, .reg2Cmp ra rb⟩ s = s.kept := by
  simp [optEffective, Operands.outputRegs, Opcode.isBranch]

theorem optClear_branchop (ra rb : ℕ) (s : OptState) (r : ℕ) :
    optClear ⟨.iflt, .reg2Cmp ra rb⟩ s r = s.eff r := by
  simp [optClear, Operands.outputRegs, List.contains]

/-- Effective set at a kept branch: the branch's own compare registers,
the restored output registers of the following kept instruction, and the
prior effective set. -/
theorem optEff_branchop_kept (outputRegs : List ℕ) (ra rb : ℕ) (rest : List Op)
    (hkept : (optAux outputRegs rest).kept = true) (r : ℕ) :
    (optAux outputRegs (⟨.iflt, .reg2Cmp ra rb⟩ :: rest)).eff r =
      (([ra, rb] : List ℕ).contains r ||
        ((optAux outputRegs rest).outs.contains r || (optAux outputRegs rest).eff r)) := by
  rw [optAux_cons_eff]
  have h1 : optEffective ⟨.iflt, .reg2Cmp ra rb⟩ (optAux outputRegs rest) = true := by
    rw [optEffective_branchop]; exact hkept
  have h2 : ((optAux outputRegs rest).kept && Opcode.isBranch .iflt) = true := by
    rw [hkept]; rfl
  rw [optInputs, if_pos h1, optRestore, if_pos h2]
  rw [optClear_branchop, Operands.inputRegs]

/-- Effective set at a non-kept branch: unchanged. -/
theorem optEff_branchop_not_kept (outputRegs : List ℕ) (ra rb : ℕ) (rest : List Op)
    (hkept : (optAux outputRegs rest).kept = false) (r : ℕ) :
    (optAux outputRegs (⟨.iflt, .reg2Cmp ra rb⟩ :: rest)).eff r =
      (optAux outputRegs rest).eff r := by
  rw [optAux_cons_eff]
  have h1 : optEffective ⟨.iflt, .reg2Cmp ra rb⟩ (optAux outputRegs rest) = false := by
    rw [optEffective_branchop]; exact hkept
  have h2 : ((optAux outputRegs rest).kept && Opcode.isBranch .iflt) = false := by
    rw [hkept]; rfl
  rw [optInputs, if_neg (by simp [h1]), optRestore, if_neg (by simp [h2])]
  exact optClear_branchop ra rb _ r

theorem optEffective_assign (op : Op) (s : OptState) (ri : ℕ)
    (houts : op.operands.outputRegs = [ri]) (hbr : op.code.isBranch = false) :
    optEffective op s = s.eff ri := by
  simp [optEffective, houts, hbr]

/-- A not-kept instruction leaves the reverse-pass state unchanged
(pointwise on the effective set). -/
theorem optAux_not_kept (outputRegs : List ℕ) (op : Op) (rest : List Op)
    (h : (optAux outputRegs (op :: rest)).kept = false) :
    (∀ r, (optAux outputRegs (op :: rest)).eff r = (optAux outputRegs rest).eff r) ∧
    (optAux outputRegs (op :: rest)).code = (optAux outputRegs rest).code := by
  rw [optAux_cons_kept] at h
  have hparts := Bool.or_eq_false_iff.mp h
  constructor
  · intro r
    rw [optAux_cons_eff, optInputs, if_neg (by simp [h]), optRestore,
      if_neg (by simp [hparts.2]), optClear]
    by_cases hc : op.operands.outputRegs.contains r = true
    · rw [if_pos hc]
      have hmem := (contains_true_iff _ _).mp hc
      have hf := List.any_eq_false.mp hparts.1 r hmem
      simp only [Bool.not_eq_true] at hf
      exact hf.symm
    · rw [if_neg hc]
  · rw [optAux_cons_code, if_neg (by simp [h])]

/-- If the instruction after a branch is not kept, the whole guard region
(the branch run and the first non-branch after it) is removed and the
reverse-pass state is unchanged across the skip. -/
theorem optAux_skipChain_not_kept (outputRegs : List ℕ) :
    ∀ l : List Op, l.all Op.shapeOk = true → (optAux outputRegs l).kept = false →
      (∀ r, (optAux outputRegs (skipChain l)).eff r = (optAux outputRegs l).eff r) ∧
      (optAux outputRegs (skipChain l)).code = (optAux outputRegs l).code := by
  intro l
  induction l with
  | nil => intro _ _; exact ⟨fun _ => rfl, rfl⟩
  | cons x t ih =>
    intro hall hk
    rw [List.all_cons, Bool.and_eq_true] at hall
    obtain ⟨l1eff, l1code⟩ := optAux_not_kept outputRegs x t hk
    by_cases hbx : x.code.isBranch = true
    · obtain ⟨ra, rb, hx⟩ := shapeOk_branch x hall.1 hbx
      subst hx
      have hk2 : (optAux outputRegs t).kept = false := by
        rw [optAux_cons_kept, optEffective_branchop] at hk
        exact hk
      have hsk : skipChain (⟨.iflt, .reg2Cmp ra rb⟩ :: t) = skipChain t := by
        rw [skipChain, if_pos hbx]
      obtain ⟨ih1, ih2⟩ := ih hall.2 hk2
      rw [hsk]
      exact ⟨fun r => (ih1 r).trans (l1eff r).symm, ih2.trans l1code.symm⟩
    · have hsk : skipChain (x :: t) = t := by
        rw [skipChain, if_neg hbx]
      rw [hsk]
      exact ⟨fun r => (l1eff r).symm, l1code.symm⟩

/-- If the instruction after a branch is kept, the whole guard region is
kept, the skip commutes with the pass on the optimized code, and the
effective set at the skip target is covered by the effective set at the
region start together with the restored output registers. -/
theorem optAux_skipChain_kept (outputRegs : List ℕ) :
    ∀ l : List Op, l.all Op.shapeOk = true → (optAux outputRegs l).kept = true →
      skipChain ((optAux outputRegs l).code) = (optAux outputRegs (skipChain l)).code ∧
      (∀ r, (optAux outputRegs (skipChain l)).eff r = true →
        ((optAux outputRegs l).eff r || (optAux outputRegs l).outs.contains r) = true) := by
  intro l
  induction l with
  | nil => intro _ hk; exact absurd hk (by simp [optAux_nil_kept])
  | cons x t ih =>
    intro hall hk
    rw [List.all_cons, Bool.and_eq_true] at hall
    have hkc := hk
    rw [optAux_cons_kept] at hkc
    have hcode : (optAux outputRegs (x :: t)).code = x :: (optAux outputRegs t).code := by
      rw [optAux_cons_code, if_pos hkc]
    by_cases hbx : x.code.isBranch = true
    · obtain ⟨ra, rb, hx⟩ := shapeOk_branch x hall.1 hbx
      subst hx
      have hkt : (optAux outputRegs t).kept = true := by
        rw [optEffective_branchop] at hkc
        exact hkc
      obtain ⟨ih1, ih2⟩ := ih hall.2 hkt
      have hsk : skipChain (⟨.iflt, .reg2Cmp ra rb⟩ :: t) = skipChain t := by
        rw [skipChain, if_pos hbx]
      constructor
      · rw [hcode, skipChain, if_pos hbx, hsk]
        exact ih1
      · intro r hr
        rw [hsk] at hr
        have h2 := ih2 r hr
        rw [optEff_branchop_kept outputRegs ra rb t hkt r]
        cases he : (optAux outputRegs t).eff r with
        | true => simp [he]
        | false =>
          rw [he, Bool.false_or] at h2
          rw [h2]
          simp
    · have hsk : skipChain (x :: t) = t := by
        rw [skipChain, if_neg hbx]
      constructor
      · rw [hcode, skipChain, if_neg hbx, hsk]
      · intro r hr
        rw [hsk] at hr
        rw [optAux_cons_eff, optAux_cons_outs]
        by_cases hc : x.operands.outputRegs.contains r = true
        · rw [hc, Bool.or_true]
        · have h1 : optClear x (optAux outputRegs t) r = true := by
            rw [optClear, if_neg hc]; exact hr
          have h2 : optRestore x (optAux outputRegs t) r = true := by
            unfold optRestore
            split <;> simp [h1]
          have h3 : optInputs x (optAux outputRegs t) r = true := by
            unfold optInputs
            split <;> simp [h2]
          rw [h3, Bool.true_or]

theorem assignSpec_agree (op : Op) (mem1 mem2 : List Val)
    (h : ∀ r ∈ op.operands.inputRegs, readMem mem1 r = readMem mem2 r) :
    assignSpec op mem1 = assignSpec op mem2 := by
  obtain ⟨c, o⟩ := op
  cases o with
  | reg2Cmp ra rb => cases c <;> rfl
  | reg2Assign ri ra =>
    have hra : readMem mem1 ra = readMem mem2 ra := h ra (by simp [Operands.inputRegs])
    cases c <;> simp [assignSpec, hra]
  | reg3Assign ri ra rb =>
    have hra : readMem mem1 ra = readMem mem2 ra := h ra (by simp [Operands.inputRegs])
    have hrb : readMem mem1 rb = readMem mem2 rb := h rb (by simp [Operands.inputRegs])
    cases c <;> simp [assignSpec, hra, hrb]
  | immAssign ri imm => cases c <;> rfl

/-- Running one assignment on two memories that agree on its inputs and
on the constant range: agreement is preserved and additionally
established at the destination register. -/
theorem execOp_sim (numReg : ℕ) (op : Op) (mem1 mem2 : List Val) (ri : ℕ) (v : Val)
    (g : Bool)
    (hnr : numReg ≤ mem1.length)
    (hmlen : mem1.length = mem2.length)
    (hin : ∀ r ∈ op.operands.inputRegs, readMem mem1 r = readMem mem2 r)
    (hconst : ∀ r, numReg ≤ r → readMem mem1 r = readMem mem2 r)
    (hs : assignSpec op mem1 = some (ri, v, g))
    (hfin : g = true → v.isFinite = true) :
    ∀ r, (readMem mem1 r = readMem mem2 r ∨ r = ri) →
      readMem (execOp numReg op mem1) r = readMem (execOp numReg op mem2) r := by
  intro r hr
  have hs2 : assignSpec op mem2 = some (ri, v, g) := by
    rw [← assignSpec_agree op mem1 mem2 hin]
    exact hs
  unfold execOp
  rw [hs, hs2]
  dsimp only
  have hgate : (!g || v.isFinite) = true := by
    cases g
    · rfl
    · rw [hfin rfl]
      rfl
  rw [hgate, Bool.true_and]
  by_cases hri : ri < numReg
  · rw [if_pos (by simp [hri]), if_pos (by simp [hri])]
    by_cases hrr : r = ri
    · subst hrr
      rw [readMem_set_self mem1 r v (by omega), readMem_set_self mem2 r v (by omega)]
    · rw [readMem_set_ne mem1 ri r v hrr, readMem_set_ne mem2 ri r v hrr]
      rcases hr with h | h
      · exact h
      · exact absurd h hrr
  · rw [if_neg (by simp [hri]), if_neg (by simp [hri])]
    rcases hr with h | h
    · exact h
    · subst h
      exact hconst r (by omega)

/-- The simulation behind the dead-code pass: running a code suffix on a
memory, and its optimized form on a memory that agrees on the suffix's
effective registers and on the constant range, yields final memories
that agree on the declared output registers and on the constant range —
provided every finiteness gate along the unoptimized run admits its
value. -/
theorem optAux_sim (outRegs : List ℕ) (numReg : ℕ) :
    ∀ n code memU memO, code.length ≤ n →
      code.all Op.shapeOk = true →
      numReg ≤ memU.length →
      memU.length = memO.length →
      execOk numReg code memU = true →
      (∀ r, (optAux outRegs code).eff r = true → readMem memU r = readMem memO r) →
      (∀ r, numReg ≤ r → readMem memU r = readMem memO r) →
      ∀ r, (outRegs.contains r = true ∨ numReg ≤ r) →
        readMem (execCode numReg code memU) r =
          readMem (execCode numReg (optAux outRegs code).code memO) r := by
  intro n
  induction n with
  | zero =>
    intro code memU memO hn _ _ _ _ hEff hConst r hr
    have hnil : code = [] := List.length_eq_zero.mp (Nat.le_zero.mp hn)
    subst hnil
    rcases hr with h | h
    · exact hEff r h
    · exact hConst r h
  | succ n ih =>
    intro code memU memO hn hall hnr hmlen hok hEff hConst
    cases code with
    | nil =>
      intro r hr
      rcases hr with h | h
      · exact hEff r h
      · exact hConst r h
    | cons op rest =>
      rw [List.all_cons, Bool.and_eq_true] at hall
      simp only [List.length_cons, Nat.succ_le_succ_iff] at hn
      rw [execOk_cons] at hok
      cases hb : branchArgs op with
      | some pr =>
        obtain ⟨ra, rb⟩ := pr
        rw [hb] at hok
        dsimp only at hok
        have hx := branchArgs_eq_some op ra rb hb
        subst hx
        by_cases hkept : (optAux outRegs rest).kept = true
        · -- the guard region after this branch is kept
          have hcode : (optAux outRegs (⟨.iflt, .reg2Cmp ra rb⟩ :: rest)).code
              = ⟨.iflt, .reg2Cmp ra rb⟩ :: (optAux outRegs rest).code := by
            rw [optAux_cons_code, if_pos (by rw [optEffective_branchop]; exact hkept)]
          have hra : readMem memU ra = readMem memO ra := by
            apply hEff
            rw [optEff_branchop_kept outRegs ra rb rest hkept]
            simp [List.contains]
          have hrb : readMem memU rb = readMem memO rb := by
            apply hEff
            rw [optEff_branchop_kept outRegs ra rb rest hkept]
            simp [List.contains]
          intro r hr
          rw [execCode_cons, hcode, execCode_cons]
          dsimp only [branchArgs]
          rw [← hra, ← hrb]
          by_cases hge : (readMem memU ra).ge (readMem memU rb) = true
          · rw [if_pos hge, if_pos hge]
            rw [if_pos hge] at hok
            obtain ⟨hsk1, hsk2⟩ := optAux_skipChain_kept outRegs rest hall.2 hkept
            rw [hsk1]
            apply ih (skipChain rest) memU memO
              (Nat.le_trans (skipChain_length_le rest) hn)
              (skipChain_all _ rest hall.2) hnr hmlen hok ?_ hConst r hr
            intro r2 hr2
            have h2 := hsk2 r2 hr2
            apply hEff r2
            rw [optEff_branchop_kept outRegs ra rb rest hkept]
            cases he : (optAux outRegs rest).eff r2 with
            | true => simp [he]
            | false =>
              rw [he, Bool.false_or] at h2
              rw [h2]
              simp
          · rw [if_neg hge, if_neg hge]
            rw [if_neg hge] at hok
            apply ih rest memU memO hn hall.2 hnr hmlen hok ?_ hConst r hr
            intro r2 hr2
            apply hEff r2
            rw [optEff_branchop_kept outRegs ra rb rest hkept]
            simp [hr2]
        · -- the guard region after this branch is fully removed
          have hkf : (optAux outRegs rest).kept = false := Bool.eq_false_iff.mpr hkept
          obtain ⟨l1eff, l1code⟩ := optAux_not_kept outRegs ⟨.iflt, .reg2Cmp ra rb⟩ rest
            (by rw [optAux_cons_kept, optEffective_branchop]; exact hkf)
          intro r hr
          rw [execCode_cons, l1code]
          dsimp only [branchArgs]
          by_cases hge : (readMem memU ra).ge (readMem memU rb) = true
          · rw [if_pos hge]
            rw [if_pos hge] at hok
            obtain ⟨l2eff, l2code⟩ := optAux_skipChain_not_kept outRegs rest hall.2 hkf
            rw [← l2code]
            apply ih (skipChain rest) memU memO
              (Nat.le_trans (skipChain_length_le rest) hn)
              (skipChain_all _ rest hall.2) hnr hmlen hok ?_ hConst r hr
            intro r2 hr2
            apply hEff r2
            rw [l1eff r2, ← l2eff r2]
            exact hr2
          · rw [if_neg hge]
            rw [if_neg hge] at hok
            apply ih rest memU memO hn hall.2 hnr hmlen hok ?_ hConst r hr
            intro r2 hr2
            apply hEff r2
            rw [l1eff r2]
            exact hr2
      | none =>
        rw [hb] at hok
        dsimp only at hok
        rw [Bool.and_eq_true] at hok
        obtain ⟨hbr, hex⟩ := shapeOk_assign op hall.1 hb memU
        obtain ⟨ri, v, g, hsX⟩ := hex
        have houts := assignSpec_dest op memU ri v g hsX
        have heffeq : optEffective op (optAux outRegs rest) = (optAux outRegs rest).eff ri :=
          optEffective_assign op _ ri houts hbr
        have hfin : g = true → v.isFinite = true := by
          intro hg
          subst hg
          have h1 := hok.1
          unfold opValueOk at h1
          rw [hsX] at h1
          exact h1
        by_cases hkept : (optAux outRegs rest).eff ri = true
        · -- kept assignment
          have hcode : (optAux outRegs (op :: rest)).code
              = op :: (optAux outRegs rest).code := by
            rw [optAux_cons_code, if_pos (by rw [heffeq]; exact hkept)]
          have hinAg : ∀ r2 ∈ op.operands.inputRegs, readMem memU r2 = readMem memO r2 := by
            intro r2 hr2
            apply hEff r2
            rw [optAux_cons_eff]
            unfold optInputs
            rw [if_pos (by rw [heffeq]; exact hkept)]
            show (op.operands.inputRegs.contains r2 ||
              optRestore op (optAux outRegs rest) r2) = true
            rw [(contains_true_iff _ _).mpr hr2, Bool.true_or]
          have hsim := execOp_sim numReg op memU memO ri v g hnr hmlen hinAg hConst hsX hfin
          intro r hr
          rw [execCode_cons, hcode, execCode_cons, hb]
          dsimp only
          apply ih rest (execOp numReg op memU) (execOp numReg op memO)
            hn hall.2 (by rw [execOp_length]; exact hnr)
            (by rw [execOp_length, execOp_length]; exact hmlen) hok.2 ?_ ?_ r hr
          · intro r2 hr2
            by_cases hrr : r2 = ri
            · exact hsim r2 (Or.inr hrr)
            · apply hsim r2
              left
              apply hEff r2
              rw [optAux_cons_eff]
              unfold optInputs
              rw [if_pos (by rw [heffeq]; exact hkept)]
              show (op.operands.inputRegs.contains r2 ||
                optRestore op (optAux outRegs rest) r2) = true
              have hor : optRestore op (optAux outRegs rest) r2 = true := by
                unfold optRestore
                rw [if_neg (by rw [hbr]; simp)]
                unfold optClear
                rw [if_neg (by rw [houts]; simp [List.contains, hrr])]
                exact hr2
              rw [hor, Bool.or_true]
          · intro r2 h2
            rw [execOp_const _ _ _ _ h2, execOp_const _ _ _ _ h2]
            exact hConst r2 h2
        · -- removed assignment
          have hkf : (optAux outRegs rest).eff ri = false := Bool.eq_false_iff.mpr hkept
          have hkfc : (optAux outRegs (op :: rest)).kept = false := by
            rw [optAux_cons_kept, heffeq]
            exact hkf
          obtain ⟨l1eff, l1code⟩ := optAux_not_kept outRegs op rest hkfc
          intro r hr
          rw [execCode_cons, l1code, hb]
          dsimp only
          apply ih rest (execOp numReg op memU) memO hn hall.2
            (by rw [execOp_length]; exact hnr)
            (by rw [execOp_length]; exact hmlen) hok.2 ?_ ?_ r hr
          · intro r2 hr2
            have hne : r2 ≠ ri := by
              intro he
              subst he
              rw [hr2] at hkf
              cases hkf
            rw [execOp_untouched numReg op memU r2 (by rw [houts]; simp [hne])]
            apply hEff r2
            rw [l1eff r2]
            exact hr2
          · intro r2 h2
            rw [execOp_const _ _ _ _ h2]
            exact hConst r2 h2

theorem drop_skipFromA (code : List Op) :
    ∀ fuel p, code.length ≤ p + fuel →
      code.drop (skipFromA code fuel p) = skipChain (code.drop p) := by
  intro fuel
  induction fuel with
  | zero =>
    intro p h
    have hd : code.drop p = [] := List.drop_eq_nil_of_le (by omega)
    rw [skipFromA, hd]
    rfl
  | succ n ih =>
    intro p h
    rw [skipFromA]
    cases hg : code.get? p with
    | none =>
      have hlen : code.length ≤ p := by
        rw [List.get?_eq_getElem?] at hg
        exact List.getElem?_eq_none_iff.mp hg
      have hd : code.drop p = [] := List.drop_eq_nil_of_le hlen
      rw [hd]
      rfl
    | some op =>
      have hp : p < code.length := by
        rcases Nat.lt_or_ge p code.length with h2 | h2
        · exact h2
        · rw [List.get?_eq_getElem?, List.getElem?_eq_none h2] at hg
          cases hg
      have hcp : code[p] = op := by
        rw [List.get?_eq_getElem?, List.getElem?_eq_getElem hp] at hg
        exact Option.some.inj hg
      have hd : code.drop p = op :: code.drop (p + 1) := by
        rw [List.drop_eq_getElem_cons hp, hcp]
      rw [hd, skipChain]
      dsimp only
      by_cases hbx : op.code.isBranch = true
      · rw [if_pos hbx, if_pos hbx]
        exact ih (p + 1) (by omega)
      · rw [if_neg hbx, if_neg hbx]

theorem drop_skipFrom (code : List Op) (p : ℕ) :
    code.drop (skipFrom code p) = skipChain (code.drop p) :=
  drop_skipFromA code (code.length - p) p (by omega)

/-- Bridge between the step machine and the suffix semantics: stepping
the VM to completion computes `execCode` of the remaining code suffix. -/
theorem stepN_mem_eq :
    ∀ n (vm : LgpVm), vm.code.length ≤ vm.pc + n →
      (LgpVm.stepN n vm).mem = execCode vm.numReg (vm.code.drop vm.pc) vm.mem := by
  intro n
  induction n with
  | zero =>
    intro vm h
    rw [List.drop_eq_nil_of_le (by omega)]
    rfl
  | succ m ih =>
    intro vm h
    rcases Nat.lt_or_ge vm.pc vm.code.length with hlt | hge
    · rw [LgpVm.stepN]
      have hg : vm.code.get? vm.pc = some vm.code[vm.pc] := by
        rw [List.get?_eq_getElem?, List.getElem?_eq_getElem hlt]
      have hd : vm.code.drop vm.pc = vm.code[vm.pc] :: vm.code.drop (vm.pc + 1) :=
        List.drop_eq_getElem_cons hlt
      rw [hd, execCode_cons]
      unfold LgpVm.step
      rw [hg]
      dsimp only
      cases hb : branchArgs vm.code[vm.pc] with
      | some pr =>
        obtain ⟨ra, rb⟩ := pr
        dsimp only
        by_cases hge2 : (readMem vm.mem ra).ge (readMem vm.mem rb) = true
        · rw [if_pos hge2, if_pos hge2]
          have h2 := ih { vm with pc := skipFrom vm.code (vm.pc + 1) }
            (by
              have := skipFrom_ge vm.code (vm.pc + 1)
              simp only
              omega)
          simp only at h2
          rw [h2, drop_skipFrom]
        · rw [if_neg hge2, if_neg hge2]
          have h2 := ih { vm with pc := vm.pc + 1 } (by simp only; omega)
          simp only at h2
          rw [h2]
      | none =>
        dsimp only
        have h2 := ih { vm with pc := vm.pc + 1, mem := execOp vm.numReg vm.code[vm.pc] vm.mem } (by simp only; omega)
        simp only at h2
        rw [h2]
    · have hnone : vm.step = none := (step_none_iff vm).mpr hge
      rw [LgpVm.stepN, hnone]
      rw [List.drop_eq_nil_of_le hge]
      rfl

/-- `LgpVm::run` on a fresh VM computes the suffix semantics of the whole
program. -/
theorem run_mem_eq (code : List Op) (regs consts : List Val) :
    (LgpVm.new code regs consts).run.mem = execCode regs.length code (regs ++ consts) := by
  unfold LgpVm.run
  rw [stepN_mem_eq ((LgpVm.new code regs consts).code.length + 1) _ (by simp [LgpVm.new])]
  simp [LgpVm.new]

/-- C1 (amended): for every well-formed LGP program, declared output set
and initial register and constant values, if the execution of the
unoptimized program never computes a non-finite value at a
finiteness-gated instruction (`execOk`), then running the VM on the
program produced by `LgpOptimizer::optimize` yields the same final
values in the declared output registers as running it on the original
program.  (Without the `execOk` premise the claim is false — see the
counterexample: a dropped write can expose a value whose producer the
optimizer removed.) -/
theorem optimize_preserves_outputs (code : List Op) (outputRegs : List ℕ)
    (regs consts : List Val)
    (hwf : code.all Op.shapeOk = true)
    (hok : execOk regs.length code (regs ++ consts) = true) :
    ∀ r ∈ outputRegs,
      readMem (LgpVm.new code regs consts).run.mem r =
        readMem (LgpVm.new (LgpOptimizer.optimize code outputRegs) regs consts).run.mem r := by
  intro r hr
  rw [run_mem_eq, run_mem_eq]
  exact optAux_sim outputRegs regs.length code.length code (regs ++ consts) (regs ++ consts)
    (Nat.le_refl _) hwf (by simp) rfl hok (fun r2 _ => rfl) (fun r2 _ => rfl) r
    (Or.inl ((contains_true_iff _ _).mpr hr))

theorem optimize_preserves_outputs_witness :
    readMem (LgpVm.new [⟨.copy, .reg2Assign 0 1⟩, ⟨.copy, .reg2Assign 1 0⟩]
        [.fin 0, .fin 7] []).run.mem 0 =
      readMem (LgpVm.new (LgpOptimizer.optimize
          [⟨.copy, .reg2Assign 0 1⟩, ⟨.copy, .reg2Assign 1 0⟩] [0])
        [.fin 0, .fin 7] []).run.mem 0 :=
  optimize_preserves_outputs [⟨.copy, .reg2Assign 0 1⟩, ⟨.copy, .reg2Assign 1 0⟩] [0]
    [.fin 0, .fin 7] [] (by decide) (by decide) 0 (by decide)

/-- C1 counterexample: dead-code elimination does not preserve outputs on
all inputs.  In `load r0, 5; div r0, r1, r2` with `r1 = 1`, `r2 = 0` and
output register 0, the division produces `inf`, so the VM drops the
write and the unoptimized program ends with `r0 = 5`; the optimizer
nevertheless removes the load (its destination is overwritten by the
division), and the optimized program ends with `r0 = 0`. -/
theorem optimize_not_output_preserving :
    ¬ (readMem (LgpVm.new [⟨.load, .immAssign 0 5⟩, ⟨.div, .reg3Assign 0 1 2⟩]
          [.fin 0, .fin 1, .fin 0] []).run.mem 0 =
        readMem (LgpVm.new (LgpOptimizer.optimize
            [⟨.load, .immAssign 0 5⟩, ⟨.div, .reg3Assign 0 1 2⟩] [0])
          [.fin 0, .fin 1, .fin 0] []).run.mem 0) := by
  decide

/-!
## LGP program distance (C5)

`ops/distance.rs`'s `dist_fn` and `Op::dist`
(`evaluators/lgp/vm/op.rs`, the file cited by the claim: the opcode
penalty there is `100.0`), combined by `LgpEvaluator::distance`
(`evaluators/lgp/eval.rs`) over the optimized op sequences.
-/

/-- `dist_fn` (`ops/distance.rs`): missing-weight times the length
difference, plus the pairwise distances over the common prefix. -/
def dist_fn (s1 s2 : List Op) (missing : ℚ) (f : Op → Op → ℚ) : ℚ :=
  |((s1.length : ℚ) - (s2.length : ℚ))| * missing + (List.zipWith f s1 s2).sum

/-- Modelled from the spec: the operand payload of a modern `Op` in
program order, as compared byte-by-byte by `Op::dist` (the stale
`op.rs` zips the raw `data: [u8; 3]` arrays; the modern operand shapes
are `Reg2Cmp/Reg2Assign/Reg3Assign/ImmAssign`). -/
def Op.data : Op → List ℚ
  | ⟨_, .reg2Cmp ra rb⟩ => [(ra : ℚ), (rb : ℚ)]
  | ⟨_, .reg2Assign ri ra⟩ => [(ri : ℚ), (ra : ℚ)]
  | ⟨_, .reg3Assign ri ra rb⟩ => [(ri : ℚ), (ra : ℚ), (rb : ℚ)]
  | ⟨_, .immAssign ri imm⟩ => [(ri : ℚ), imm]

/-- `Op::dist` (`evaluators/lgp/vm/op.rs` lines 193–204): a constant
`100.0` penalty when the opcodes differ, plus the absolute per-operand
differences over the zipped payloads. -/
def Op.dist (a b : Op) : ℚ :=
  (if a.code ≠ b.code then 100 else 0) +
    (List.zipWith (fun x y => |x - y|) a.data b.data).sum

/-- `LgpState` (`evaluators/lgp/eval.rs`): the unoptimized op sequence
plus register count, constant count and declared output registers. -/
structure LgpState where
  opsUnopt : List Op
  numReg : ℕ
  numConst : ℕ
  outputRegs : List ℕ

/-- `LgpState::ops_opt`: the dead-code-eliminated program. -/
def LgpState.opsOpt (s : LgpState) : List Op :=
  LgpOptimizer.optimize s.opsUnopt s.outputRegs

/-- `LgpEvaluator::distance`: `dist_fn` over the optimized op sequences
with missing weight `1.0` and per-op distance `Op::dist` (the source
wraps the value in `Ok`; the computation never fails). -/
def LgpEvaluator.distance (s1 s2 : LgpState) : ℚ :=
  dist_fn s1.opsOpt s2.opsOpt 1 Op.dist

/-- The per-op distance exactly as the claim words it: a constant
penalty of 10 when the opcodes differ plus per-operand differences. -/
def claimOpDist (a b : Op) : ℚ :=
  (if a.code ≠ b.code then 10 else 0) +
    (List.zipWith (fun x y => |x - y|) a.data b.data).sum

/-- The spec-side per-op distance with the amended constant 100. -/
def specOpDist (a b : Op) : ℚ :=
  (if a.code = b.code then 0 else 100) +
    (List.zipWith (fun x y => |x - y|) a.data b.data).sum

theorem zipWith_sum_eq_range_sum (f : Op → Op → ℚ) (d : Op) :
    ∀ (xs ys : List Op),
      (List.zipWith f xs ys).sum =
        ((List.range (min xs.length ys.length)).map
          (fun i => f (xs.getD i d) (ys.getD i d))).sum := by
  intro xs
  induction xs with
  | nil => intro ys; simp
  | cons x xs ih =>
    intro ys
    cases ys with
    | nil => simp
    | cons y ys =>
      rw [List.zipWith_cons_cons, List.sum_cons, ih ys]
      have hmin : min (x :: xs).length (y :: ys).length = min xs.length ys.length + 1 := by
        simp [Nat.succ_min_succ]
      rw [hmin, List.range_succ_eq_map]
      rw [List.map_cons, List.sum_cons]
      simp only [List.map_map]
      rfl

/-- C5 (amended): the evaluator distance is `dist_fn` applied to the two
optimized op sequences with missing weight 1.0; the per-op distance adds
a constant penalty of 100 (not 10, as claimed) when the opcodes differ
plus the per-operand differences, and a length mismatch contributes
`|la - lb|` times the missing weight.  The right-hand side is the spec's
closed form: length-difference term plus an indexed sum of per-op
distances over the common prefix. -/
theorem lgp_distance_spec (s1 s2 : LgpState) :
    LgpEvaluator.distance s1 s2 =
      |((s1.opsOpt.length : ℚ) - (s2.opsOpt.length : ℚ))| * 1 +
        ((List.range (min s1.opsOpt.length s2.opsOpt.length)).map
          (fun i => specOpDist (s1.opsOpt.getD i ⟨.iflt, .reg2Cmp 0 0⟩)
            (s2.opsOpt.getD i ⟨.iflt, .reg2Cmp 0 0⟩))).sum := by
  unfold LgpEvaluator.distance dist_fn
  rw [zipWith_sum_eq_range_sum Op.dist ⟨.iflt, .reg2Cmp 0 0⟩]
  have hfun : ∀ a b : Op, Op.dist a b = specOpDist a b := by
    intro a b
    unfold Op.dist specOpDist
    by_cases h : a.code = b.code
    · rw [if_neg (by simp [h]), if_pos h]
    · rw [if_pos h, if_neg h]
  simp only [hfun]

/-- C5 counterexample: the claim's constant penalty of 10 is wrong; the
source adds 100.  Two single-instruction programs differing only in the
opcode are at evaluator distance 100, not 10. -/
theorem lgp_distance_not_penalty_10 :
    ¬ (LgpEvaluator.distance ⟨[⟨.add, .reg3Assign 0 1 2⟩], 3, 0, [0]⟩
          ⟨[⟨.sub, .reg3Assign 0 1 2⟩], 3, 0, [0]⟩ =
        dist_fn (LgpState.opsOpt ⟨[⟨.add, .reg3Assign 0 1 2⟩], 3, 0, [0]⟩)
          (LgpState.opsOpt ⟨[⟨.sub, .reg3Assign 0 1 2⟩], 3, 0, [0]⟩) 1 claimOpDist) := by
  have h1 : LgpState.opsOpt ⟨[⟨.add, .reg3Assign 0 1 2⟩], 3, 0, [0]⟩
      = [⟨.add, .reg3Assign 0 1 2⟩] := by decide
  have h2 : LgpState.opsOpt ⟨[⟨.sub, .reg3Assign 0 1 2⟩], 3, 0, [0]⟩
      = [⟨.sub, .reg3Assign 0 1 2⟩] := by decide
  unfold LgpEvaluator.distance
  rw [h1, h2]
  unfold dist_fn Op.dist claimOpDist Op.data
  have hne : Opcode.add ≠ Opcode.sub := by decide
  norm_num [hne]

/-!
## The generation pipeline

`Member` follows `gen/member.rs` (the adaptive `params` field is
omitted: the claims below do not inspect it, and the randomness of its
evolution is folded into the child/opponent oracles).  Randomness
(`rand::rng`) is modelled by oracle functions passed as parameters;
`eyre::Result` by `Except Unit`.
-/

/-- One individual (`Member` in `gen/member.rs`): state, species tag
(`0` = unassigned), raw fitness, selection fitness and age. -/
structure Member (α : Type) where
  state : α
  species : ℕ
  fitness : Val
  selectionFitness : Val
  age : ℕ
  deriving DecidableEq, Repr

/-- `SpeciesInfo` (`gen/species.rs`). -/
structure SpeciesInfo where
  num : ℕ
  radius : ℚ
  deriving DecidableEq, Repr

/-- Insertion step of `sortBy`. -/
def insertBy (le : β → β → Bool) (x : β) : List β → List β
  | [] => [x]
  | y :: ys => if le x y then x :: y :: ys else y :: insertBy le x ys

/-- Insertion sort.  Models the source's `sort_unstable_by` calls: the
source leaves the order of elements with equal keys unspecified, so any
sort consistent with the key order is a faithful model. -/
def sortBy (le : β → β → Bool) : List β → List β
  | [] => []
  | x :: xs => insertBy le x (sortBy le xs)

theorem mem_insertBy (le : β → β → Bool) (x : β) :
    ∀ l y, y ∈ insertBy le x l ↔ (y = x ∨ y ∈ l) := by
  intro l
  induction l with
  | nil => intro y; simp [insertBy]
  | cons z zs ih =>
    intro y
    rw [insertBy]
    split
    · simp
    · rw [List.mem_cons, ih y, List.mem_cons]
      tauto

theorem mem_sortBy (le : β → β → Bool) :
    ∀ l y, y ∈ sortBy le l ↔ y ∈ l := by
  intro l
  induction l with
  | nil => intro y; simp [sortBy]
  | cons z zs ih =>
    intro y
    rw [sortBy, mem_insertBy, ih y, List.mem_cons]

theorem length_insertBy (le : β → β → Bool) (x : β) :
    ∀ l, (insertBy le x l).length = l.length + 1 := by
  intro l
  induction l with
  | nil => rfl
  | cons z zs ih =>
    rw [insertBy]
    split
    · rfl
    · rw [List.length_cons, ih, List.length_cons]

theorem length_sortBy (le : β → β → Bool) :
    ∀ l, (sortBy le l).length = l.length := by
  intro l
  induction l with
  | nil => rfl
  | cons z zs ih =>
    rw [sortBy, length_insertBy, ih, List.length_cons]

/-!
## Tournament survival (C3)

`EvaluatedGen::survivors`, `Survival::Tournament(q)` arm
(`genr/evaluated.rs` lines 78–88).  The `choose_multiple(&mut rng, q)`
draw of random opponents for the member at index `i` is modelled by the
oracle `opps i`.
-/

/-- The per-member score of the tournament arm: the source counts the
opponents with `opp.fitness > mem.fitness` — opponents strictly
*stronger* than the member. -/
def tourScores (opps : ℕ → List (Member α)) : ℕ → List (Member α) → List (ℕ × Member α)
  | _, [] => []
  | i, m :: ms =>
    ((opps i).countP (fun opp => opp.fitness.gt m.fitness), m) :: tourScores opps (i + 1) ms

/-- `Survival::Tournament` survivors: members sorted by their score
descending (`sort_unstable_by_key(|(wins, _)| -(wins as i64))`), ages
bumped. -/
def survivorsTournament (opps : ℕ → List (Member α)) (mems : List (Member α)) :
    List (Member α) :=
  ((sortBy (fun p q : ℕ × Member α => q.1 ≤ p.1) (tourScores opps 0 mems)).map
    (fun p => p.2)).map (fun m => { m with age := m.age + 1 })

/-- C3 (code bug): the tournament arm ranks members by the number of
*stronger* opponents, descending — the weakest members first.  With two
members of fitness 5 and 1, each playing the other: the fitness-5 member
beats its opponent (1 win under the claim's reading) but scores 0 in the
code, the fitness-1 member loses its game (0 wins) but scores 1; the
code places the fitness-1 member first, so a member with more wins is
placed after a member with fewer wins. -/
theorem tournament_ranks_weakest_first :
    survivorsTournament
      (fun i => if i = 0
        then [⟨1, 0, .fin 1, .fin 0, 0⟩]
        else [⟨0, 0, .fin 5, .fin 0, 0⟩])
      [⟨0, 0, .fin 5, .fin 0, 0⟩, ⟨1, 0, .fin 1, .fin 0, 0⟩] =
      [⟨1, 0, .fin 1, .fin 0, 1⟩, ⟨0, 0, .fin 5, .fin 0, 1⟩] := by
  decide

/-!
## Speciation (C2, C4)

The current `DistCache::speciate` (over `Member`/`SpeciesId`) is missing
from `src/` — the delivered `gen/species.rs` is a stale variant over the
old `Mem`/`Genome` API that does not type-check against its delivered
callers (`gen/unevaluated.rs` calls `ensure(..)?` and `gen/member.rs`
imports `SpeciesId` from it).  The clustering pass is therefore modelled
from the spec (§4.2 Step 3): members are scanned in fitness-descending
order (the input order — members are sorted before speciation); the
first unassigned member defines a new species; every other unassigned
member whose distance to that seed is at most the radius joins it.
`d i j` is the pairwise distance of the (sorted) members at indices `i`
and `j`.
-/

theorem getD_map_range (f : ℕ → ℕ) (n j : ℕ) (h : j < n) :
    ((List.range n).map f).getD j 0 = f j := by
  rw [List.getD_eq_getElem?_getD, List.getElem?_map, List.getElem?_range h]
  rfl

theorem getD_zero_of_le (l : List ℕ) (j : ℕ) (h : l.length ≤ j) : l.getD j 0 = 0 := by
  rw [List.getD_eq_getElem?_getD, List.getElem?_eq_none h]
  rfl

/-- Modelled from the spec: one scan step of the clustering pass at
member index `i`.  An already-assigned member is skipped; an unassigned
member founds species `tag + 1` and gathers every unassigned member
within the radius of itself.  Fuelled recursion over the member indices
(fuel `n` suffices). -/
def speciateA (d : ℕ → ℕ → ℚ) (radius : ℚ) (n : ℕ) :
    ℕ → ℕ → List ℕ → ℕ → (List ℕ × ℕ)
  | 0, _, ids, tag => (ids, tag)
  | fuel + 1, i, ids, tag =>
    if n ≤ i then (ids, tag)
    else if ids.getD i 0 ≠ 0 then speciateA d radius n fuel (i + 1) ids tag
    else
      let ids2 := (List.range n).map (fun j =>
        if j = i then tag + 1
        else if ids.getD j 0 = 0 && decide (d i j ≤ radius) then tag + 1
        else ids.getD j 0)
      speciateA d radius n fuel (i + 1) ids2 (tag + 1)

/-- Modelled from the spec: `DistCache::speciate` — cluster the `n`
(sorted) members at the given radius, returning the species tags (`1`
upward) and the `SpeciesInfo` with the species count and the radius. -/
def speciate (d : ℕ → ℕ → ℚ) (radius : ℚ) (n : ℕ) : List ℕ × SpeciesInfo :=
  let p := speciateA d radius n n 0 (List.replicate n 0) 0
  (p.1, ⟨p.2, radius⟩)

theorem speciateA_spec (d : ℕ → ℕ → ℚ) (radius : ℚ) (n : ℕ) :
    ∀ fuel i ids tag,
      n ≤ i + fuel →
      ids.length = n →
      (∀ j, j < i → j < n → ids.getD j 0 ≠ 0) →
      (∀ j, ids.getD j 0 ≤ tag) →
      (∀ t, 1 ≤ t → t ≤ tag →
        ∃ seed, seed < n ∧ seed < i ∧ ids.getD seed 0 = t ∧
          ∀ j, j < n → ids.getD j 0 = t → seed ≤ j ∧ (j = seed ∨ d seed j ≤ radius)) →
      (speciateA d radius n fuel i ids tag).1.length = n ∧
      (∀ j, j < n → (speciateA d radius n fuel i ids tag).1.getD j 0 ≠ 0) ∧
      (∀ j, (speciateA d radius n fuel i ids tag).1.getD j 0 ≤
        (speciateA d radius n fuel i ids tag).2) ∧
      tag ≤ (speciateA d radius n fuel i ids tag).2 ∧
      (∀ t, 1 ≤ t → t ≤ (speciateA d radius n fuel i ids tag).2 →
        ∃ seed, seed < n ∧ (speciateA d radius n fuel i ids tag).1.getD seed 0 = t ∧
          ∀ j, j < n → (speciateA d radius n fuel i ids tag).1.getD j 0 = t →
            seed ≤ j ∧ (j = seed ∨ d seed j ≤ radius)) := by
  intro fuel
  induction fuel with
  | zero =>
    intro i ids tag hn hlen hpre hbound hseed
    rw [speciateA]
    refine ⟨hlen, ?_, hbound, Nat.le_refl _, ?_⟩
    · intro j hj
      exact hpre j (by omega) hj
    · intro t h1 h2
      obtain ⟨seed, hs1, _, hs3, hs4⟩ := hseed t h1 h2
      exact ⟨seed, hs1, hs3, hs4⟩
  | succ fuel ih =>
    intro i ids tag hn hlen hpre hbound hseed
    rw [speciateA]
    by_cases hni : n ≤ i
    · rw [if_pos hni]
      refine ⟨hlen, ?_, hbound, Nat.le_refl _, ?_⟩
      · intro j hj
        exact hpre j (by omega) hj
      · intro t h1 h2
        obtain ⟨seed, hs1, _, hs3, hs4⟩ := hseed t h1 h2
        exact ⟨seed, hs1, hs3, hs4⟩
    · rw [if_neg hni]
      push_neg at hni
      by_cases hz : ids.getD i 0 ≠ 0
      · rw [if_pos hz]
        apply ih (i + 1) ids tag (by omega) hlen ?_ hbound ?_
        · intro j hj1 hj2
          rcases Nat.lt_or_ge j i with h | h
          · exact hpre j h hj2
          · have : j = i := by omega
            subst this
            exact hz
        · intro t h1 h2
          obtain ⟨seed, hs1, hs2, hs3, hs4⟩ := hseed t h1 h2
          exact ⟨seed, hs1, by omega, hs3, hs4⟩
      · rw [if_neg hz]
        push_neg at hz
        dsimp only
        set ids2 : List ℕ := (List.range n).map (fun j =>
          if j = i then tag + 1
          else if ids.getD j 0 = 0 && decide (d i j ≤ radius) then tag + 1
          else ids.getD j 0) with hids2
        have hg2 : ∀ j, j < n → ids2.getD j 0 =
            (if j = i then tag + 1
             else if ids.getD j 0 = 0 && decide (d i j ≤ radius) then tag + 1
             else ids.getD j 0) := by
          intro j hj
          rw [hids2, getD_map_range _ n j hj]
        have hpre2 : ∀ j, j < i + 1 → j < n → ids2.getD j 0 ≠ 0 := by
          intro j hj1 hj2
          rw [hg2 j hj2]
          rcases Nat.lt_or_ge j i with h | h
          · have hpj := hpre j h hj2
            rw [if_neg (by omega), if_neg (by
              intro hcond
              simp only [Bool.and_eq_true, decide_eq_true_eq] at hcond
              exact hpj hcond.1)]
            exact hpj
          · have : j = i := by omega
            subst this
            rw [if_pos rfl]
            omega
        have hbnd2 : ∀ j, ids2.getD j 0 ≤ tag + 1 := by
          intro j
          rcases Nat.lt_or_ge j n with h | h
          · rw [hg2 j h]
            split
            · omega
            · split
              · omega
              · have := hbound j
                omega
          · rw [getD_zero_of_le _ j (by rw [hids2]; simp [h])]
            omega
        have hseed2 : ∀ t, 1 ≤ t → t ≤ tag + 1 →
            ∃ seed, seed < n ∧ seed < i + 1 ∧ ids2.getD seed 0 = t ∧
              ∀ j, j < n → ids2.getD j 0 = t →
                seed ≤ j ∧ (j = seed ∨ d seed j ≤ radius) := by
          intro t h1 h2
          rcases Nat.lt_or_ge t (tag + 1) with hlt | hge
          · -- an old species: its members are exactly the old ones
            obtain ⟨seed, hs1, hs2, hs3, hs4⟩ := hseed t h1 (by omega)
            refine ⟨seed, hs1, by omega, ?_, ?_⟩
            · rw [hg2 seed hs1, if_neg (by omega), if_neg (by
                intro hcond
                simp only [Bool.and_eq_true, decide_eq_true_eq] at hcond
                rw [hs3] at hcond
                omega)]
              exact hs3
            · intro j hj hjt
              rw [hg2 j hj] at hjt
              by_cases hji : j = i
              · subst hji
                rw [if_pos rfl] at hjt
                omega
              · rw [if_neg hji] at hjt
                by_cases hj0 : (ids.getD j 0 = 0 && decide (d i j ≤ radius)) = true
                · rw [if_pos hj0] at hjt
                  omega
                · rw [if_neg hj0] at hjt
                  exact hs4 j hj hjt
          · -- the new species, seeded at i
            have ht : t = tag + 1 := by omega
            subst ht
            refine ⟨i, hni, by omega, ?_, ?_⟩
            · rw [hg2 i hni, if_pos rfl]
            · intro j hj hjt
              rw [hg2 j hj] at hjt
              by_cases hji : j = i
              · subst hji
                exact ⟨Nat.le_refl _, Or.inl rfl⟩
              · rw [if_neg hji] at hjt
                by_cases hj0 : (ids.getD j 0 = 0 && decide (d i j ≤ radius)) = true
                · simp only [Bool.and_eq_true, decide_eq_true_eq] at hj0
                  constructor
                  · rcases Nat.lt_or_ge j i with h | h
                    · exact absurd hj0.1 (hpre j h hj)
                    · omega
                  · exact Or.inr hj0.2
                · rw [if_neg hj0] at hjt
                  have := hbound j
                  omega
        have hres := ih (i + 1) ids2 (tag + 1) (by omega) (by rw [hids2]; simp)
          hpre2 hbnd2 hseed2
        refine ⟨hres.1, hres.2.1, hres.2.2.1, ?_, hres.2.2.2.2⟩
        have := hres.2.2.2.1
        omega

/-- Clustering properties of one `speciate` pass: tag list length,
total assignment, tag bound, and the seed property of each cluster. -/
theorem speciate_props (d : ℕ → ℕ → ℚ) (radius : ℚ) (n : ℕ) :
    (speciate d radius n).1.length = n ∧
    (∀ j, j < n → (speciate d radius n).1.getD j 0 ≠ 0) ∧
    (∀ j, (speciate d radius n).1.getD j 0 ≤ (speciate d radius n).2.num) ∧
    (∀ t, 1 ≤ t → t ≤ (speciate d radius n).2.num →
      ∃ seed, seed < n ∧ (speciate d radius n).1.getD seed 0 = t ∧
        ∀ j, j < n → (speciate d radius n).1.getD j 0 = t →
          seed ≤ j ∧ (j = seed ∨ d seed j ≤ radius)) := by
  have h := speciateA_spec d radius n n 0 (List.replicate n 0) 0 (by omega)
    (by simp)
    (fun j hj _ => absurd hj (Nat.not_lt_zero j))
    (by intro j; rw [List.getD_eq_getElem?_getD]; cases h : (List.replicate n 0)[j]? with
        | none => rfl
        | some v =>
          have := List.getElem?_mem h
          rw [List.eq_of_mem_replicate this]
          rfl)
    (fun t h1 h2 => absurd (Nat.le_trans h1 h2) (by omega))
  exact ⟨h.1, h.2.1, h.2.2.1, h.2.2.2.2⟩

/-- C4: species clustering at radius `r` scans members in
fitness-descending order (the input index order); each species `t` has a
seed — its *lowest-index*, i.e. highest-fitness, member — and every
member of the cluster is the seed itself or lies within distance `r` of
the seed (`seed ≤ j` states that no cluster member precedes its seed, so
the highest-fitness member of every cluster is its seed); every member
is assigned a species. -/
theorem speciate_clusters (d : ℕ → ℕ → ℚ) (radius : ℚ) (n : ℕ) :
    (speciate d radius n).1.length = n ∧
    (∀ j, j < n → (speciate d radius n).1.getD j 0 ≠ 0) ∧
    (∀ j, (speciate d radius n).1.getD j 0 ≤ (speciate d radius n).2.num) ∧
    (∀ t, 1 ≤ t → t ≤ (speciate d radius n).2.num →
      ∃ seed, seed < n ∧ (speciate d radius n).1.getD seed 0 = t ∧
        ∀ j, j < n → (speciate d radius n).1.getD j 0 = t →
          seed ≤ j ∧ (j = seed ∨ d seed j ≤ radius)) :=
  speciate_props d radius n

theorem speciate_clusters_witness :
    ∃ seed, seed < 2 ∧
      (speciate (fun i j => if i = j then 0 else 5) 1 2).1.getD seed 0 = 1 ∧
      ∀ j, j < 2 →
        (speciate (fun i j => if i = j then 0 else 5) 1 2).1.getD j 0 = 1 →
          seed ≤ j ∧ (j = seed ∨ (if seed = j then (0 : ℚ) else 5) ≤ 1) :=
  (speciate_clusters (fun i j => if i = j then 0 else 5) 1 2).2.2.2 1 (by decide) (by decide)

/-!
## The species-radius binary search (C2)

The `Species::TargetNumber(target)` arm of `UnevaluatedGen::evaluate`
(`gen/unevaluated.rs` lines 57–79): bisect the radius over
`[0, dists.max()]` until `speciate` produces the target species count or
`relative_eq!(lo, hi, epsilon = 1.0e-6)` holds.
-/

/-- `approx::relative_eq!` with `epsilon = 1.0e-6`: equal, or absolutely
within `1e-6`, or relatively within `f64::EPSILON = 2^-52` (the macro's
default `max_relative`). -/
def relEq (a b : ℚ) : Bool :=
  a = b || |a - b| ≤ 1 / 1000000 ||
    |a - b| ≤ (1 / 4503599627370496) * max |a| |b|

/-- The pairwise-distance lookup of a `DistCache` row-major matrix. -/
def distMatrix (cache : List (List ℚ)) : ℕ → ℕ → ℚ :=
  fun i j => (cache.getD i []).getD j 0

/-- `DistCache::max`: fold of `f64::max` over all entries from `0.0`. -/
def distMax (cache : List (List ℚ)) : ℚ :=
  (cache.map (fun row => row.foldl max 0)).foldl max 0

/-- The radius bisection loop.  The loop state is `(lo, hi)` plus the
ids/info of the last `speciate` call; the `Bool` in the result records
whether the loop exited because the bracket closed (`relative_eq`) as
opposed to hitting the target count — the source breaks out of the loop
at those two places.  The fuel models the finite number of iterations of
the source's `while` loop (the bracket halves each turn, so it always
closes); `none` is fuel exhaustion. -/
def searchLoop (d : ℕ → ℕ → ℚ) (n target : ℕ) :
    ℕ → ℚ → ℚ → List ℕ → SpeciesInfo → Option (List ℕ × SpeciesInfo × Bool)
  | 0, _, _, _, _ => none
  | fuel + 1, lo, hi, ids, info =>
    if relEq lo hi then some (ids, info, true)
    else
      let p := speciate d ((lo + hi) / 2) n
      if p.2.num < target then searchLoop d n target fuel lo p.2.radius p.1 p.2
      else if p.2.num = target then some (p.1, p.2, false)
      else searchLoop d n target fuel p.2.radius hi p.1 p.2

/-- The species tags produced by one clustering pass are exactly
`{1, …, num}`. -/
theorem speciate_toFinset (d : ℕ → ℕ → ℚ) (radius : ℚ) (n : ℕ) :
    (speciate d radius n).1.toFinset = Finset.Icc 1 (speciate d radius n).2.num := by
  obtain ⟨hlen, hnz, hbound, hseed⟩ := speciate_props d radius n
  ext t
  rw [List.mem_toFinset, Finset.mem_Icc]
  constructor
  · intro ht
    obtain ⟨j, hj, hje⟩ := List.mem_iff_getElem.mp ht
    have hjlt : j < n := by omega
    have hgd : (speciate d radius n).1.getD j 0 = t := by
      rw [List.getD_eq_getElem?_getD, List.getElem?_eq_getElem hj, hje]
      rfl
    constructor
    · have := hnz j hjlt
      omega
    · rw [← hgd]
      exact hbound j
  · intro ⟨h1, h2⟩
    obtain ⟨seed, hs1, hs2, _⟩ := hseed t h1 h2
    have hslt : seed < (speciate d radius n).1.length := by omega
    rw [List.getD_eq_getElem?_getD, List.getElem?_eq_getElem hslt] at hs2
    have : (speciate d radius n).1[seed] = t := hs2
    rw [← this]
    exact List.getElem_mem hslt

theorem speciate_card (d : ℕ → ℕ → ℚ) (radius : ℚ) (n : ℕ) :
    (speciate d radius n).1.toFinset.card = (speciate d radius n).2.num := by
  rw [speciate_toFinset, Nat.card_Icc]
  omega

/-- The bisection exits with the target species count, or because its
bracket closed within tolerance (`byTol`). -/
theorem searchLoop_spec (d : ℕ → ℕ → ℚ) (n target : ℕ) :
    ∀ fuel lo hi ids0 info0 ids info byTol,
      searchLoop d n target fuel lo hi ids0 info0 = some (ids, info, byTol) →
      byTol = true ∨
        (ids.toFinset.card = target ∧ ids.length = n ∧
          ∀ j, j < n → ids.getD j 0 ≠ 0) := by
  intro fuel
  induction fuel with
  | zero => intro lo hi ids0 info0 ids info byTol h; cases h
  | succ fuel ih =>
    intro lo hi ids0 info0 ids info byTol h
    rw [searchLoop] at h
    split at h
    · rw [Option.some.injEq, Prod.mk.injEq, Prod.mk.injEq] at h
      left
      exact h.2.2.symm
    · dsimp only at h
      split at h
      · exact ih _ _ _ _ _ _ _ h
      · split at h
        · next heq =>
          rw [Option.some.injEq, Prod.mk.injEq, Prod.mk.injEq] at h
          right
          obtain ⟨hids, hinfo, _⟩ := h
          rw [← hids]
          obtain ⟨hlen, hnz, _, _⟩ := speciate_props d ((lo + hi) / 2) n
          exact ⟨by rw [speciate_card]; exact heq, hlen, hnz⟩
        · exact ih _ _ _ _ _ _ _ h

/-!
## `UnevaluatedGen::evaluate` (C2, C10)

The fitness oracle `fit` models `eval.multi_fitness(state, inputs,
reduction)` for the fixed training inputs of the iteration; the distance
oracle models `eval.distance`; `pw` models `f64::powf` for the
shared-fitness exponent.  `Except Unit` models `eyre::Result`.
-/

/-- Step 1 of `evaluate`: set every member's fitness, aborting on the
first failure (`try_for_each`). -/
def setFits (fit : α → Except Unit Val) : List (Member α) → Except Unit (List (Member α))
  | [] => .ok []
  | m :: ms =>
    match fit m.state with
    | .error e => .error e
    | .ok v =>
      match setFits fit ms with
      | .error e => .error e
      | .ok rest => .ok ({ m with fitness := v } :: rest)

/-- The per-member fitness check of `evaluate`:
`v >= 0.0 && v.is_finite()`. -/
def fitnessOk (m : Member α) : Bool := m.fitness.ge (.fin 0) && m.fitness.isFinite

/-- Step 2 of `evaluate`: sort members by fitness descending
(`sort_unstable_by` with reversed `partial_cmp`; fitnesses are finite
here, so the unwrap cannot panic). -/
def sortFitDesc (mems : List (Member α)) : List (Member α) :=
  sortBy (fun a b => (b.fitness).le (a.fitness)) mems

/-- Sequencing a list of fallible results, aborting on the first
error. -/
def seqExcept : List (Except Unit β) → Except Unit (List β)
  | [] => .ok []
  | x :: xs =>
    match x with
    | .error e => .error e
    | .ok v =>
      match seqExcept xs with
      | .error e => .error e
      | .ok vs => .ok (v :: vs)

/-- `DistCache::ensure`: all `n × n` pairwise distances, row-major; any
distance failure fails the whole computation (`ensure(..)?`). -/
def distCacheEnsure (dist : α → α → Except Unit ℚ) (mems : List (Member α)) :
    Except Unit (List (List ℚ)) :=
  seqExcept (mems.map (fun a => seqExcept (mems.map (fun b => dist a.state b.state))))

/-- Writing the species ids into the members
(`for (i, &id) in ids.iter().enumerate() { mems[i].species = id }`):
positions beyond `ids.len()` are untouched. -/
def assignSpecies (mems : List (Member α)) (ids : List ℕ) : List (Member α) :=
  (List.zipWith (fun m id => { m with species := id }) mems ids) ++ mems.drop ids.length

/-- The fitness-sharing denominator of `DistCache::shared_fitness`:
`Σ_j (1 - (d(i,j)/radius)^alpha)` over the `j` with `d(i,j) < radius`
(`pwA` is the `^alpha`). -/
def sharedSum (d : ℕ → ℕ → ℚ) (n i : ℕ) (radius : ℚ) (pwA : ℚ → ℚ) : ℚ :=
  ((List.range n).map (fun j =>
    if d i j < radius then 1 - pwA (d i j / radius) else 0)).sum

/-- `DistCache::shared_fitness`: divide each member's fitness by its
sharing denominator to produce the selection fitness. -/
def sharedFitnessMap (d : ℕ → ℕ → ℚ) (radius : ℚ) (pwA : ℚ → ℚ) (n : ℕ) :
    ℕ → List (Member α) → List (Member α)
  | _, [] => []
  | i, m :: ms =>
    { m with selectionFitness := m.fitness.div (.fin (sharedSum d n i radius pwA)) } ::
      sharedFitnessMap d radius pwA n (i + 1) ms

/-- `Species` config (`evolve/cfg.rs`). -/
inductive SpeciesCfg where
  | noSpecies
  | targetNumber (target : ℕ)

/-- `Niching` config (`evolve/cfg.rs`). -/
inductive NichingCfg where
  | noNiching
  | sharedFitness (radius : ℚ)
  | speciesShared

/-- The speciation step of `evaluate` (`cfg.species` match): no-op under
`Species::None`; under `Species::TargetNumber(target)` fill the distance
cache (`ensure(..)?`) and run the radius bisection, then write the
species ids into the members. -/
def specPhase (dist : α → α → Except Unit ℚ) (species : SpeciesCfg) (fuel : ℕ)
    (sorted : List (Member α)) : Except Unit (List (Member α) × SpeciesInfo) :=
  match species with
  | .noSpecies => .ok (sorted, ⟨1, 1⟩)
  | .targetNumber target =>
    match distCacheEnsure dist sorted with
    | .error e => .error e
    | .ok cache =>
      match searchLoop (distMatrix cache) sorted.length target fuel 0
          (distMax cache) [] ⟨1, 1⟩ with
      | none => .error ()
      | some (ids, info, _) => .ok (assignSpecies sorted ids, info)

/-- The niching step of `evaluate` (`cfg.niching` match): selection
fitness is the raw fitness (`Niching::None`), or the shared fitness at a
fixed radius with exponent `6.0` (`Niching::SharedFitness`), or the
shared fitness at the species radius with exponent
`radius / num` (`Niching::SpeciesSharedFitness`). -/
def nichingPhase (dist : α → α → Except Unit ℚ) (pw : ℚ → ℚ → ℚ)
    (niching : NichingCfg) (mems2 : List (Member α)) (info : SpeciesInfo) :
    Except Unit (List (Member α)) :=
  match niching with
  | .noNiching => .ok (mems2.map (fun m => { m with selectionFitness := m.fitness }))
  | .sharedFitness radius =>
    match distCacheEnsure dist mems2 with
    | .error e => .error e
    | .ok cache =>
      .ok (sharedFitnessMap (distMatrix cache) radius (fun x => pw x 6)
        mems2.length 0 mems2)
  | .speciesShared =>
    match distCacheEnsure dist mems2 with
    | .error e => .error e
    | .ok cache =>
      .ok (sharedFitnessMap (distMatrix cache) info.radius
        (fun x => pw x (info.radius / info.num)) mems2.length 0 mems2)

/-- `UnevaluatedGen::evaluate` (`gen/unevaluated.rs`): compute
fitnesses (failing on any error), fail if any fitness is negative or
non-finite, sort by fitness descending, run the speciation radius search
if configured (distance failures propagate), then derive the selection
fitnesses per the niching config (distance failures propagate). -/
def evaluate (fit : α → Except Unit Val) (dist : α → α → Except Unit ℚ)
    (pw : ℚ → ℚ → ℚ) (species : SpeciesCfg) (niching : NichingCfg) (fuel : ℕ)
    (mems : List (Member α)) : Except Unit (List (Member α)) :=
  match setFits fit mems with
  | .error e => .error e
  | .ok fitted =>
    if fitted.all fitnessOk then
      match specPhase dist species fuel (sortFitDesc fitted) with
      | .error e => .error e
      | .ok (mems2, info) => nichingPhase dist pw niching mems2 info
    else .error ()

theorem assignSpecies_cons (x : Member α) (xs : List (Member α)) (id : ℕ) (ids : List ℕ) :
    assignSpecies (x :: xs) (id :: ids) =
      { x with species := id } :: assignSpecies xs ids := rfl

theorem assignSpecies_nil_ids (l : List (Member α)) : assignSpecies l [] = l := by
  unfold assignSpecies
  simp

theorem assignSpecies_fitness_mem :
    ∀ (l : List (Member α)) ids m, m ∈ assignSpecies l ids →
      ∃ m0, m0 ∈ l ∧ m.fitness = m0.fitness := by
  intro l
  induction l with
  | nil =>
    intro ids m hm
    unfold assignSpecies at hm
    simp at hm
  | cons x xs ih =>
    intro ids m hm
    cases ids with
    | nil =>
      rw [assignSpecies_nil_ids] at hm
      exact ⟨m, hm, rfl⟩
    | cons id ids =>
      rw [assignSpecies_cons] at hm
      rcases List.mem_cons.mp hm with h | h
      · exact ⟨x, List.mem_cons_self _ _, by rw [h]⟩
      · obtain ⟨m0, hm0, hf⟩ := ih ids m h
        exact ⟨m0, List.mem_cons_of_mem _ hm0, hf⟩

theorem assignSpecies_map_species :
    ∀ (l : List (Member α)) ids, ids.length = l.length →
      (assignSpecies l ids).map (fun m => m.species) = ids := by
  intro l
  induction l with
  | nil =>
    intro ids h
    rw [List.length_nil] at h
    rw [List.length_eq_zero.mp h]
    rfl
  | cons x xs ih =>
    intro ids h
    cases ids with
    | nil => cases h
    | cons id ids =>
      rw [assignSpecies_cons, List.map_cons, ih ids (by simpa using h)]

theorem sharedFitnessMap_fitness_mem (d : ℕ → ℕ → ℚ) (radius : ℚ) (pwA : ℚ → ℚ) (n : ℕ) :
    ∀ (l : List (Member α)) i m, m ∈ sharedFitnessMap d radius pwA n i l →
      ∃ m0, m0 ∈ l ∧ m.fitness = m0.fitness := by
  intro l
  induction l with
  | nil => intro i m hm; cases hm
  | cons x xs ih =>
    intro i m hm
    rw [sharedFitnessMap] at hm
    rcases List.mem_cons.mp hm with h | h
    · exact ⟨x, List.mem_cons_self _ _, by rw [h]⟩
    · obtain ⟨m0, hm0, hf⟩ := ih (i + 1) m h
      exact ⟨m0, List.mem_cons_of_mem _ hm0, hf⟩

theorem sharedFitnessMap_map_species (d : ℕ → ℕ → ℚ) (radius : ℚ) (pwA : ℚ → ℚ) (n : ℕ) :
    ∀ (l : List (Member α)) i,
      (sharedFitnessMap d radius pwA n i l).map (fun m => m.species) =
        l.map (fun m => m.species) := by
  intro l
  induction l with
  | nil => intro i; rfl
  | cons x xs ih =>
    intro i
    rw [sharedFitnessMap, List.map_cons, List.map_cons, ih (i + 1)]

theorem setFits_error_of_mem (fit : α → Except Unit Val) :
    ∀ (mems : List (Member α)) m, m ∈ mems → fit m.state = .error () →
      setFits fit mems = .error () := by
  intro mems
  induction mems with
  | nil => intro m hm; cases hm
  | cons x xs ih =>
    intro m hm herr
    rcases List.mem_cons.mp hm with h | h
    · rw [setFits, ← h, herr]
    · rw [setFits]
      cases fit x.state with
      | error e => rfl
      | ok v =>
        dsimp only
        rw [ih m h herr]

theorem setFits_fitness_mem (fit : α → Except Unit Val) :
    ∀ (mems fitted : List (Member α)), setFits fit mems = .ok fitted →
      ∀ m ∈ fitted, ∃ m0 ∈ mems, fit m0.state = .ok m.fitness := by
  intro mems
  induction mems with
  | nil =>
    intro fitted h m hm
    rw [setFits] at h
    rw [Except.ok.injEq] at h
    rw [← h] at hm
    cases hm
  | cons x xs ih =>
    intro fitted h m hm
    rw [setFits] at h
    cases hfx : fit x.state with
    | error e => rw [hfx] at h; cases h
    | ok v =>
      rw [hfx] at h
      dsimp only at h
      cases hrest : setFits fit xs with
      | error e => rw [hrest] at h; cases h
      | ok rest =>
        rw [hrest] at h
        rw [Except.ok.injEq] at h
        rw [← h] at hm
        rcases List.mem_cons.mp hm with hh | hh
        · refine ⟨x, List.mem_cons_self _ _, ?_⟩
          rw [hh]
          exact hfx
        · obtain ⟨m0, hm0, he⟩ := ih rest hrest m hh
          exact ⟨m0, List.mem_cons_of_mem _ hm0, he⟩

theorem specPhase_fitness_mem (dist : α → α → Except Unit ℚ) (species : SpeciesCfg)
    (fuel : ℕ) (sorted mems2 : List (Member α)) (info : SpeciesInfo)
    (h : specPhase dist species fuel sorted = .ok (mems2, info)) :
    ∀ m ∈ mems2, ∃ m0, m0 ∈ sorted ∧ m.fitness = m0.fitness := by
  intro m hm
  cases species with
  | noSpecies =>
    unfold specPhase at h
    rw [Except.ok.injEq, Prod.mk.injEq] at h
    rw [← h.1] at hm
    exact ⟨m, hm, rfl⟩
  | targetNumber target =>
    unfold specPhase at h
    cases hdc : distCacheEnsure dist sorted with
    | error e => rw [hdc] at h; cases h
    | ok cache =>
      rw [hdc] at h
      dsimp only at h
      cases hsl : searchLoop (distMatrix cache) sorted.length target fuel 0
          (distMax cache) [] ⟨1, 1⟩ with
      | none => rw [hsl] at h; cases h
      | some trip =>
        obtain ⟨ids, info2, byTol⟩ := trip
        rw [hsl] at h
        dsimp only at h
        rw [Except.ok.injEq, Prod.mk.injEq] at h
        rw [← h.1] at hm
        exact assignSpecies_fitness_mem sorted ids m hm

theorem nichingPhase_fitness_mem (dist : α → α → Except Unit ℚ) (pw : ℚ → ℚ → ℚ)
    (niching : NichingCfg) (mems2 : List (Member α)) (info : SpeciesInfo)
    (out : List (Member α)) (h : nichingPhase dist pw niching mems2 info = .ok out) :
    ∀ m ∈ out, ∃ m0, m0 ∈ mems2 ∧ m.fitness = m0.fitness := by
  intro m hm
  cases niching with
  | noNiching =>
    unfold nichingPhase at h
    rw [Except.ok.injEq] at h
    rw [← h] at hm
    obtain ⟨m0, hm0, hms⟩ := List.mem_map.mp hm
    exact ⟨m0, hm0, by rw [← hms]⟩
  | sharedFitness radius =>
    unfold nichingPhase at h
    cases hdc : distCacheEnsure dist mems2 with
    | error e => rw [hdc] at h; cases h
    | ok cache =>
      rw [hdc] at h
      dsimp only at h
      rw [Except.ok.injEq] at h
      rw [← h] at hm
      exact sharedFitnessMap_fitness_mem _ _ _ _ mems2 0 m hm
  | speciesShared =>
    unfold nichingPhase at h
    cases hdc : distCacheEnsure dist mems2 with
    | error e => rw [hdc] at h; cases h
    | ok cache =>
      rw [hdc] at h
      dsimp only at h
      rw [Except.ok.injEq] at h
      rw [← h] at hm
      exact sharedFitnessMap_fitness_mem _ _ _ _ mems2 0 m hm

theorem nichingPhase_map_species (dist : α → α → Except Unit ℚ) (pw : ℚ → ℚ → ℚ)
    (niching : NichingCfg) (mems2 : List (Member α)) (info : SpeciesInfo)
    (out : List (Member α)) (h : nichingPhase dist pw niching mems2 info = .ok out) :
    out.map (fun m => m.species) = mems2.map (fun m => m.species) := by
  cases niching with
  | noNiching =>
    unfold nichingPhase at h
    rw [Except.ok.injEq] at h
    rw [← h, List.map_map]
    rfl
  | sharedFitness radius =>
    unfold nichingPhase at h
    cases hdc : distCacheEnsure dist mems2 with
    | error e => rw [hdc] at h; cases h
    | ok cache =>
      rw [hdc] at h
      dsimp only at h
      rw [Except.ok.injEq] at h
      rw [← h]
      exact sharedFitnessMap_map_species _ _ _ _ mems2 0
  | speciesShared =>
    unfold nichingPhase at h
    cases hdc : distCacheEnsure dist mems2 with
    | error e => rw [hdc] at h; cases h
    | ok cache =>
      rw [hdc] at h
      dsimp only at h
      rw [Except.ok.injEq] at h
      rw [← h]
      exact sharedFitnessMap_map_species _ _ _ _ mems2 0

/-- C10 (amended): the success/failure contract of
`UnevaluatedGen::evaluate` restricted to fitness.  (1) On success every
member's fitness is `>= 0` and finite; (2) a failed fitness evaluation
fails `evaluate`; (3) a negative or non-finite fitness fails `evaluate`.
The claim's "exactly when" direction is dropped: `evaluate` also fails
when a *distance* evaluation inside speciation or niching fails, or when
the radius search exhausts — see the counterexample. -/
theorem evaluate_fitness_contract (fit : α → Except Unit Val)
    (dist : α → α → Except Unit ℚ) (pw : ℚ → ℚ → ℚ) (species : SpeciesCfg)
    (niching : NichingCfg) (fuel : ℕ) (mems : List (Member α)) :
    (∀ out, evaluate fit dist pw species niching fuel mems = .ok out →
      ∀ m ∈ out, (m.fitness.ge (.fin 0) && m.fitness.isFinite) = true) ∧
    (∀ m ∈ mems, fit m.state = .error () →
      evaluate fit dist pw species niching fuel mems = .error ()) ∧
    (∀ fitted, setFits fit mems = .ok fitted → fitted.all fitnessOk = false →
      evaluate fit dist pw species niching fuel mems = .error ()) := by
  refine ⟨?_, ?_, ?_⟩
  · intro out h m hm
    unfold evaluate at h
    cases hsf : setFits fit mems with
    | error e => rw [hsf] at h; cases h
    | ok fitted =>
      rw [hsf] at h
      dsimp only at h
      by_cases hall : fitted.all fitnessOk = true
      · rw [if_pos hall] at h
        cases hsp : specPhase dist species fuel (sortFitDesc fitted) with
        | error e => rw [hsp] at h; cases h
        | ok p =>
          obtain ⟨mems2, info⟩ := p
          rw [hsp] at h
          dsimp only at h
          obtain ⟨m2, hm2, hf2⟩ := nichingPhase_fitness_mem dist pw niching mems2 info out h m hm
          obtain ⟨m1, hm1, hf1⟩ := specPhase_fitness_mem dist species fuel
            (sortFitDesc fitted) mems2 info hsp m2 hm2
          have hm0 : m1 ∈ fitted := (mem_sortBy _ fitted m1).mp hm1
          have hok := List.all_eq_true.mp hall m1 hm0
          unfold fitnessOk at hok
          rw [hf2, hf1]
          exact hok
      · rw [if_neg hall] at h
        cases h
  · intro m hm herr
    unfold evaluate
    rw [setFits_error_of_mem fit mems m hm herr]
  · intro fitted hsf hbad
    unfold evaluate
    rw [hsf]
    dsimp only
    rw [if_neg (by rw [hbad]; simp)]

theorem evaluate_fitness_contract_witness :
    evaluate (fun _ : Unit => (Except.error () : Except Unit Val)) (fun _ _ => .ok (0 : ℚ))
      (fun _ _ => 0) .noSpecies .noNiching 1 [⟨(), 0, .fin 0, .fin 0, 0⟩] = .error () :=
  (evaluate_fitness_contract (fun _ : Unit => .error ()) (fun _ _ => .ok 0) (fun _ _ => 0)
    .noSpecies .noNiching 1 [⟨(), 0, .fin 0, .fin 0, 0⟩]).2.1
    ⟨(), 0, .fin 0, .fin 0, 0⟩ (List.mem_singleton.mpr rfl) rfl

/-- C10 counterexample to "returns an error *exactly when* some member's
fitness evaluation fails or produces a negative or non-finite value":
here the single member's fitness evaluates successfully to `1`, which
passes the check (second conjunct), yet `evaluate` fails — the
`Species::TargetNumber` arm's distance evaluation errors and
`ensure(..)?` propagates it. -/
theorem evaluate_error_without_fitness_failure :
    evaluate (fun _ : Unit => .ok (Val.fin 1)) (fun _ _ => (.error () : Except Unit ℚ))
      (fun _ _ => 0) (.targetNumber 1) .noNiching 5 [⟨(), 0, .fin 0, .fin 0, 0⟩] =
        .error () ∧
    ((Val.fin 1).ge (.fin 0) && (Val.fin 1).isFinite) = true :=
  ⟨rfl, by decide⟩

/-- C2: if `evaluate` succeeds under `Species::TargetNumber(target)`,
the number of distinct species tags over the returned members equals
`target`, or the radius bisection over `[0, dist.max]` exited because
its bracket closed within the `relative_eq` tolerance. -/
theorem evaluate_species_target (fit : α → Except Unit Val)
    (dist : α → α → Except Unit ℚ) (pw : ℚ → ℚ → ℚ) (niching : NichingCfg)
    (fuel target : ℕ) (mems out : List (Member α))
    (h : evaluate fit dist pw (.targetNumber target) niching fuel mems = .ok out) :
    ((out.map (fun m => m.species)).toFinset).card = target ∨
      ∃ fitted cache ids info,
        setFits fit mems = .ok fitted ∧
        distCacheEnsure dist (sortFitDesc fitted) = .ok cache ∧
        searchLoop (distMatrix cache) (sortFitDesc fitted).length target fuel 0
          (distMax cache) [] ⟨1, 1⟩ = some (ids, info, true) := by
  unfold evaluate at h
  cases hsf : setFits fit mems with
  | error e => rw [hsf] at h; cases h
  | ok fitted =>
    rw [hsf] at h
    dsimp only at h
    by_cases hall : fitted.all fitnessOk = true
    · rw [if_pos hall] at h
      unfold specPhase at h
      cases hdc : distCacheEnsure dist (sortFitDesc fitted) with
      | error e => rw [hdc] at h; cases h
      | ok cache =>
        rw [hdc] at h
        dsimp only at h
        cases hsl : searchLoop (distMatrix cache) (sortFitDesc fitted).length target fuel 0
            (distMax cache) [] ⟨1, 1⟩ with
        | none => rw [hsl] at h; cases h
        | some trip =>
          obtain ⟨ids, info, byTol⟩ := trip
          rw [hsl] at h
          dsimp only at h
          rcases searchLoop_spec (distMatrix cache) (sortFitDesc fitted).length target
              fuel 0 (distMax cache) [] ⟨1, 1⟩ ids info byTol hsl with htol | ⟨hcard, hlen, _⟩
          · right
            rw [htol] at hsl
            exact ⟨fitted, cache, ids, info, rfl, hdc, hsl⟩
          · left
            have hmap := nichingPhase_map_species dist pw niching
              (assignSpecies (sortFitDesc fitted) ids) info out h
            rw [assignSpecies_map_species (sortFitDesc fitted) ids hlen] at hmap
            rw [hmap]
            exact hcard
    · rw [if_neg hall] at h
      cases h

theorem evaluate_species_target_witness :
    ((([⟨(), 0, Val.fin 0, Val.fin 0, 0⟩] : List (Member Unit)).map
        (fun m => m.species)).toFinset).card = 1 ∨
      ∃ fitted cache ids info,
        setFits (fun _ : Unit => .ok (Val.fin 0)) [⟨(), 0, .fin 0, .fin 0, 0⟩] =
          .ok fitted ∧
        distCacheEnsure (fun _ _ => .ok (0 : ℚ)) (sortFitDesc fitted) = .ok cache ∧
        searchLoop (distMatrix cache) (sortFitDesc fitted).length 1 5 0
          (distMax cache) [] ⟨1, 1⟩ = some (ids, info, true) :=
  evaluate_species_target (fun _ : Unit => .ok (.fin 0)) (fun _ _ => .ok 0) (fun _ _ => 0)
    .noNiching 5 1 [⟨(), 0, .fin 0, .fin 0, 0⟩] [⟨(), 0, .fin 0, .fin 0, 0⟩] rfl

/-!
## `EvaluatedGen::next_gen` (C8)

`genr/evaluated.rs` lines 169–215.  The survivor cohort (the result of
`self.survivors(..)`) is a parameter; `Member::new((*genfn)(), cfg)` is
the oracle `genFn`; the selection/crossover/mutation pipeline producing
the two children pushed per loop turn is the oracle `childFn t k`
(draw `k` of try `t`); `dup` models
`cfg.duplicates == Duplicates::DisallowDuplicates`; `le`/`stateEq`
model `state.partial_cmp` and `state.eq`.
-/

/-- The stagnation-refill count:
`(prop * (pop_size - new_mems.len())).ceil().max(0.0) as usize`. -/
def refillNum (popSize len : ℕ) (prop : ℚ) : ℕ :=
  (⌈prop * ((popSize : ℚ) - (len : ℚ))⌉).toNat

/-- The reproduction loop
(`while new_mems.len() < cfg.pop_size { .. push(s1); push(s2) }`); each
turn pushes the two children of draw `k`.  The fuel models the finitely
many turns of the `while` (each turn grows the list by two). -/
def reproduceA (childFn : ℕ → Member α × Member α) (popSize : ℕ) :
    ℕ → ℕ → List (Member α) → List (Member α)
  | 0, _, acc => acc
  | fuel + 1, k, acc =>
    if acc.length < popSize then
      reproduceA childFn popSize fuel (k + 1) (acc ++ [(childFn k).1, (childFn k).2])
    else acc

/-- `Vec::dedup_by(|a, b| a.state.eq(&b.state))`: keep the first of
each run of consecutive members with equal states (`a` is the last kept
member). -/
def dedupGo (stateEq : α → α → Bool) (a : Member α) : List (Member α) → List (Member α)
  | [] => []
  | b :: rest =>
    if stateEq a.state b.state then dedupGo stateEq a rest
    else b :: dedupGo stateEq b rest

/-- `sort` + `dedup_by` of the duplicate-removal step. -/
def dedupByState (stateEq : α → α → Bool) : List (Member α) → List (Member α)
  | [] => []
  | a :: rest => a :: dedupGo stateEq a rest

/-- One turn of the `for _ in 0..NUM_TRIES` loop: refill by
reproduction, then remove duplicate states if `DisallowDuplicates`. -/
def tryOnce (le stateEq : α → α → Bool) (childFn : ℕ → Member α × Member α)
    (popSize : ℕ) (dup : Bool) (mems : List (Member α)) : List (Member α) :=
  let filled := reproduceA childFn popSize popSize 0 mems
  if dup then
    dedupByState stateEq (sortBy (fun a b : Member α => le a.state b.state) filled)
  else filled

/-- `EvaluatedGen::next_gen`: survivors, stagnation refill, then
`NUM_TRIES = 3` rounds of reproduction + deduplication. -/
def nextGenr (le stateEq : α → α → Bool) (survivors : List (Member α)) (stagnant : Bool)
    (popSize : ℕ) (replProp : ℚ) (genFn : ℕ → Member α)
    (childFn : ℕ → ℕ → Member α × Member α) (dup : Bool) : List (Member α) :=
  let base :=
    if stagnant then
      survivors ++ (List.range (refillNum popSize survivors.length replProp)).map genFn
    else survivors
  tryOnce le stateEq (childFn 2) popSize dup
    (tryOnce le stateEq (childFn 1) popSize dup
      (tryOnce le stateEq (childFn 0) popSize dup base))

theorem reproduceA_noop (childFn : ℕ → Member α × Member α) (popSize : ℕ) :
    ∀ fuel k acc, popSize ≤ acc.length →
      reproduceA childFn popSize fuel k acc = acc := by
  intro fuel
  cases fuel with
  | zero => intro k acc h; rfl
  | succ fuel => intro k acc h; rw [reproduceA, if_neg (by omega)]

theorem reproduceA_le (childFn : ℕ → Member α × Member α) (popSize : ℕ) :
    ∀ fuel k acc, acc.length ≤ popSize + 1 →
      (reproduceA childFn popSize fuel k acc).length ≤ popSize + 1 := by
  intro fuel
  induction fuel with
  | zero => intro k acc h; exact h
  | succ fuel ih =>
    intro k acc h
    rw [reproduceA]
    split
    · next hlt =>
      refine ih (k + 1) _ ?_
      rw [List.length_append]
      simp only [List.length_cons, List.length_nil]
      omega
    · exact h

theorem reproduceA_ge (childFn : ℕ → Member α × Member α) (popSize : ℕ) :
    ∀ fuel k acc, popSize ≤ acc.length + 2 * fuel →
      popSize ≤ (reproduceA childFn popSize fuel k acc).length := by
  intro fuel
  induction fuel with
  | zero => intro k acc h; simpa using h
  | succ fuel ih =>
    intro k acc h
    rw [reproduceA]
    split
    · next hlt =>
      refine ih (k + 1) _ ?_
      rw [List.length_append]
      simp only [List.length_cons, List.length_nil]
      omega
    · next hge => omega

theorem tryOnce_false (le stateEq : α → α → Bool) (childFn : ℕ → Member α × Member α)
    (popSize : ℕ) (mems : List (Member α)) :
    tryOnce le stateEq childFn popSize false mems =
      reproduceA childFn popSize popSize 0 mems := rfl

theorem refillNum_le (popSize len : ℕ) (prop : ℚ) (hlen : len ≤ popSize)
    (hp1 : prop ≤ 1) : refillNum popSize len prop ≤ popSize - len := by
  unfold refillNum
  have hcast : ((popSize - len : ℕ) : ℚ) = (popSize : ℚ) - (len : ℚ) := by
    push_cast [hlen]
    ring
  have hr : (0 : ℚ) ≤ (popSize : ℚ) - (len : ℚ) := by
    rw [← hcast]
    positivity
  have h1 : prop * ((popSize : ℚ) - (len : ℚ)) ≤ (popSize : ℚ) - (len : ℚ) :=
    mul_le_of_le_one_left hr hp1
  have h1' : prop * ((popSize : ℚ) - (len : ℚ)) ≤ ((popSize - len : ℕ) : ℚ) := by
    rw [hcast]
    exact h1
  have h2 : ⌈prop * ((popSize : ℚ) - (len : ℚ))⌉ ≤ ((popSize - len : ℕ) : ℤ) := by
    calc ⌈prop * ((popSize : ℚ) - (len : ℚ))⌉ ≤ ⌈((popSize - len : ℕ) : ℚ)⌉ :=
          Int.ceil_mono h1'
      _ = ((popSize - len : ℕ) : ℤ) := Int.ceil_natCast _
  exact Int.toNat_le.mpr h2

/-- C8 (amended): with duplicate removal off, a successful iteration's
new generation has between `pop_size` and `pop_size + 1` members
(given at most `pop_size` survivors and a replacement proportion at
most 1) — not exactly `pop_size`: the reproduction loop pushes children
two at a time, so an odd shortfall overshoots by one.  (With
`DisallowDuplicates` the final deduplication can also leave fewer than
`pop_size` members, since it runs after the last refill.) -/
theorem next_gen_pop_size (le stateEq : α → α → Bool) (survivors : List (Member α))
    (stagnant : Bool) (popSize : ℕ) (replProp : ℚ) (genFn : ℕ → Member α)
    (childFn : ℕ → ℕ → Member α × Member α)
    (hsur : survivors.length ≤ popSize) (hp1 : replProp ≤ 1) :
    popSize ≤
        (nextGenr le stateEq survivors stagnant popSize replProp genFn childFn false).length ∧
      (nextGenr le stateEq survivors stagnant popSize replProp genFn childFn false).length ≤
        popSize + 1 := by
  unfold nextGenr
  dsimp only
  rw [tryOnce_false, tryOnce_false, tryOnce_false]
  have hbl : (if stagnant then
      survivors ++ (List.range (refillNum popSize survivors.length replProp)).map genFn
    else survivors).length ≤ popSize := by
    cases stagnant with
    | false => simpa using hsur
    | true =>
      rw [if_pos rfl, List.length_append, List.length_map, List.length_range]
      have := refillNum_le popSize survivors.length replProp hsur hp1
      omega
  have h1l := reproduceA_ge (childFn 0) popSize popSize 0
    (if stagnant then
      survivors ++ (List.range (refillNum popSize survivors.length replProp)).map genFn
    else survivors) (by omega)
  have h1u := reproduceA_le (childFn 0) popSize popSize 0
    (if stagnant then
      survivors ++ (List.range (refillNum popSize survivors.length replProp)).map genFn
    else survivors) (by omega)
  rw [reproduceA_noop (childFn 1) popSize popSize 0 _ h1l,
    reproduceA_noop (childFn 2) popSize popSize 0 _ h1l]
  exact ⟨h1l, h1u⟩

theorem next_gen_pop_size_witness :
    2 ≤ (nextGenr (fun _ _ : Unit => true) (fun _ _ => true) [⟨(), 0, Val.fin 0, .fin 0, 0⟩]
        false 2 1 (fun _ => ⟨(), 0, .fin 0, .fin 0, 0⟩)
        (fun _ _ => (⟨(), 0, .fin 0, .fin 0, 0⟩, ⟨(), 0, .fin 0, .fin 0, 0⟩)) false).length ∧
      (nextGenr (fun _ _ : Unit => true) (fun _ _ => true) [⟨(), 0, Val.fin 0, .fin 0, 0⟩]
        false 2 1 (fun _ => ⟨(), 0, .fin 0, .fin 0, 0⟩)
        (fun _ _ => (⟨(), 0, .fin 0, .fin 0, 0⟩, ⟨(), 0, .fin 0, .fin 0, 0⟩)) false).length ≤
        2 + 1 :=
  next_gen_pop_size (fun _ _ => true) (fun _ _ => true) [⟨(), 0, .fin 0, .fin 0, 0⟩] false 2 1
    (fun _ => ⟨(), 0, .fin 0, .fin 0, 0⟩)
    (fun _ _ => (⟨(), 0, .fin 0, .fin 0, 0⟩, ⟨(), 0, .fin 0, .fin 0, 0⟩))
    (by decide) (by decide)

/-- C8 counterexample to "contains exactly `cfg.pop_size` members":
three wanted, two survivors, duplicates allowed — the reproduction loop
pushes a pair, giving four members. -/
theorem next_gen_overshoots_pop_size :
    (nextGenr (fun _ _ : Unit => true) (fun _ _ => true)
      [⟨(), 0, Val.fin 0, .fin 0, 0⟩, ⟨(), 0, .fin 0, .fin 0, 0⟩] false 3 0
      (fun _ => ⟨(), 0, .fin 0, .fin 0, 0⟩)
      (fun _ _ => (⟨(), 0, .fin 0, .fin 0, 0⟩, ⟨(), 0, .fin 0, .fin 0, 0⟩))
      false).length = 4 := by decide

end Memega
